import Mathlib

/-!
Verification of the toy collaborative-filtering recommender from the
notebook `22_dsfs_recommender_systems.ipynb`.

The notebook's floating-point similarity values are modelled exactly:
`cosine_similarity v w` is kept as the pair `(dot v w, dot v v * dot w w)`
whose real value is `num / Real.sqrt den`.  Accumulated suggestion weights
(sums of such values) are kept as sums of fraction multiples of square
roots of naturals (`SqrtSum`), so every function of the notebook stays
executable (and kernel-reducible) while every ordering statement is proved
against the exact real values.
-/

/-- Python list indexing `l[i]`: a negative index counts from the end;
an index out of `[-len l, len l)` raises `IndexError`. -/
def pyIndex {α : Type} (l : List α) (i : ℤ) : Except String α :=
  if h : 0 ≤ (if i < 0 then i + (l.length : ℤ) else i) ∧
      (if i < 0 then i + (l.length : ℤ) else i) < (l.length : ℤ) then
    .ok (l.get ⟨(if i < 0 then i + (l.length : ℤ) else i).toNat, by omega⟩)
  else
    .error "list index out of range"

/-- Python slice `l[:k]`: for nonnegative `k` the first `k` elements; for
negative `k` all but the final `-k` elements. -/
def pyTake {α : Type} (l : List α) (k : ℤ) : List α :=
  if 0 ≤ k then l.take k.toNat else l.take ((l.length : ℤ) + k).toNat

/-- Python's `<` on strings: lexicographic comparison of code points. -/
def pyCharsLt : List Char → List Char → Bool
  | [], [] => false
  | [], _ :: _ => true
  | _ :: _, [] => false
  | a :: as, b :: bs =>
    if a.toNat < b.toNat then true
    else if b.toNat < a.toNat then false
    else pyCharsLt as bs

def pyStrLt (a b : String) : Bool := pyCharsLt a.data b.data

/-- A stable sort: left fold of ordered insertion, where each element is
inserted after every element it does not strictly precede.  For a
comparator `le` that is a total preorder this produces exactly the list
Python's stable `sorted` produces. -/
def insertStable {α : Type} (le : α → α → Bool) (a : α) : List α → List α
  | [] => [a]
  | b :: l => if le a b && !le b a then a :: b :: l else b :: insertStable le a l

def sortedBy {α : Type} (le : α → α → Bool) (l : List α) : List α :=
  l.foldl (fun acc a => insertStable le a acc) []

theorem mem_insertStable {α : Type} (le : α → α → Bool) (a x : α) :
    ∀ l : List α, x ∈ insertStable le a l ↔ x = a ∨ x ∈ l := by
  intro l
  induction l with
  | nil => simp [insertStable]
  | cons b t ih =>
    by_cases h : le a b && !le b a
    · simp only [insertStable, if_pos h, List.mem_cons]
      try tauto
    · simp only [insertStable, if_neg h, List.mem_cons, ih]
      tauto

theorem mem_sortedBy {α : Type} (le : α → α → Bool) (x : α) (l : List α) :
    x ∈ sortedBy le l ↔ x ∈ l := by
  unfold sortedBy
  have H : ∀ (l : List α) (acc : List α),
      (x ∈ l.foldl (fun acc a => insertStable le a acc) acc ↔ x ∈ l ∨ x ∈ acc) := by
    intro l
    induction l with
    | nil => intro acc; simp
    | cons b t ih =>
      intro acc
      rw [List.foldl_cons, ih, mem_insertStable]
      simp only [List.mem_cons]
      tauto
  rw [H]
  simp

/-- `np.dot` on equal-length integer vectors (the notebook only ever feeds
it 0/1 membership vectors). -/
def dot (v w : List ℤ) : ℤ := (List.zipWith (· * ·) v w).sum

/-- Exact representation of the float produced by the notebook's
`cosine_similarity`: the value is `num / Real.sqrt den`. -/
structure CosSim where
  num : ℤ
  den : ℕ
  deriving DecidableEq, Repr

/-- `cosine_similarity(v, w) = np.dot(v, w) / np.sqrt(np.dot(v, v) * np.dot(w, w))`,
kept unevaluated as the pair (numerator, radicand of the denominator). -/
def cosine_similarity (v w : List ℤ) : CosSim :=
  ⟨dot v w, (dot v v * dot w w).toNat⟩

/-- The real number a `CosSim` stands for. -/
noncomputable def CosSim.val (s : CosSim) : ℝ := (s.num : ℝ) / Real.sqrt (s.den : ℝ)

/-- The float test `similarity > 0` of the notebook, decided exactly.
A NaN similarity (zero-norm operand, `den = 0`) compares as not positive,
exactly as the float NaN does. -/
def CosSim.posB (s : CosSim) : Bool := decide (0 < s.num) && decide (0 < s.den)

/-- Unnormalised fractions, kept as plain numerator/denominator pairs so
that every arithmetic step reduces inside the kernel. -/
structure Frac where
  n : ℤ
  d : ℕ
  deriving DecidableEq, Repr

noncomputable def Frac.val (a : Frac) : ℝ := (a.n : ℝ) / (a.d : ℝ)

def Frac.add (a b : Frac) : Frac := ⟨a.n * b.d + b.n * a.d, a.d * b.d⟩

def Frac.neg (a : Frac) : Frac := ⟨-a.n, a.d⟩

def Frac.mul (a b : Frac) : Frac := ⟨a.n * b.n, a.d * b.d⟩

/-- Exact `a ≤ b` by cross-multiplication (meaningful when both
denominators are positive). -/
def Frac.leB (a b : Frac) : Bool := decide (a.n * (b.d : ℤ) ≤ b.n * (a.d : ℤ))

theorem Frac.val_add {a b : Frac} (ha : 0 < a.d) (hb : 0 < b.d) :
    (Frac.add a b).val = a.val + b.val := by
  unfold Frac.val Frac.add
  have ha' : ((a.d : ℕ) : ℝ) ≠ 0 := by positivity
  have hb' : ((b.d : ℕ) : ℝ) ≠ 0 := by positivity
  field_simp
  try push_cast
  try ring

theorem Frac.val_neg (a : Frac) : (Frac.neg a).val = -a.val := by
  unfold Frac.val Frac.neg
  push_cast
  ring_nf

theorem Frac.val_mul (a b : Frac) : (Frac.mul a b).val = a.val * b.val := by
  unfold Frac.val Frac.mul
  push_cast
  rw [div_mul_div_comm]

theorem Frac.val_pos {a : Frac} (hn : 0 < a.n) (hd : 0 < a.d) : 0 < a.val := by
  unfold Frac.val
  have h1 : (0 : ℝ) < (a.n : ℝ) := by exact_mod_cast hn
  have h2 : (0 : ℝ) < (a.d : ℝ) := by exact_mod_cast hd
  positivity

theorem Frac.val_neg_of {a : Frac} (hn : a.n < 0) (hd : 0 < a.d) : a.val < 0 := by
  unfold Frac.val
  have h1 : (a.n : ℝ) < 0 := by exact_mod_cast hn
  have h2 : (0 : ℝ) < (a.d : ℝ) := by exact_mod_cast hd
  exact div_neg_of_neg_of_pos h1 h2

theorem Frac.val_zero_of {a : Frac} (hn : a.n = 0) : a.val = 0 := by
  unfold Frac.val
  rw [hn]
  simp

theorem Frac.val_nonneg_iff {a : Frac} (hd : 0 < a.d) : 0 ≤ a.val ↔ 0 ≤ a.n := by
  unfold Frac.val
  have h2 : (0 : ℝ) < (a.d : ℝ) := by exact_mod_cast hd
  rw [div_nonneg_iff]
  constructor
  · rintro (⟨h1, _⟩ | ⟨_, h3⟩)
    · exact_mod_cast h1
    · exact absurd h3 (not_le.mpr h2)
  · intro h1
    exact Or.inl ⟨by exact_mod_cast h1, h2.le⟩

theorem Frac.leB_iff {a b : Frac} (ha : 0 < a.d) (hb : 0 < b.d) :
    Frac.leB a b = true ↔ a.val ≤ b.val := by
  unfold Frac.leB Frac.val
  rw [decide_eq_true_iff]
  have ha' : (0 : ℝ) < (a.d : ℝ) := by exact_mod_cast ha
  have hb' : (0 : ℝ) < (b.d : ℝ) := by exact_mod_cast hb
  rw [div_le_div_iff₀ ha' hb']
  constructor
  · intro h
    calc (a.n : ℝ) * (b.d : ℝ) ≤ (b.n : ℝ) * (a.d : ℝ) := by exact_mod_cast h
      _ = (b.n : ℝ) * (a.d : ℝ) := rfl
  · intro h
    exact_mod_cast h

theorem dot_self_nonneg (v : List ℤ) : 0 ≤ dot v v := by
  unfold dot
  induction v with
  | nil => simp
  | cons a t ih =>
    simp only [List.zipWith_cons_cons, List.sum_cons]
    have : 0 ≤ a * a := mul_self_nonneg a
    omega

theorem dot_comm (v w : List ℤ) : dot v w = dot w v := by
  unfold dot
  induction v generalizing w with
  | nil => cases w <;> simp
  | cons a t ih =>
    cases w with
    | nil => simp
    | cons b u => simp only [List.zipWith_cons_cons, List.sum_cons, ih, mul_comm]

/-- If `v` has zero norm then every dot product with `v` vanishes. -/
theorem dot_eq_zero_left {v : List ℤ} (h : dot v v = 0) (w : List ℤ) : dot v w = 0 := by
  unfold dot at *
  induction v generalizing w with
  | nil => cases w <;> simp
  | cons a t ih =>
    cases w with
    | nil => simp
    | cons b u =>
      simp only [List.zipWith_cons_cons, List.sum_cons] at h ⊢
      have ha : 0 ≤ a * a := mul_self_nonneg a
      have ht : 0 ≤ (List.zipWith (· * ·) t t).sum := dot_self_nonneg t
      have ha0 : a = 0 := by nlinarith
      have ht0 : (List.zipWith (· * ·) t t).sum = 0 := by omega
      rw [ha0, ih ht0 u]; ring

theorem CosSim.val_pos_iff (s : CosSim) : 0 < s.val ↔ 0 < s.num ∧ 0 < s.den := by
  unfold CosSim.val
  rcases Nat.eq_zero_or_pos s.den with h | h
  · simp [h, Real.sqrt_zero]
  · have hs : 0 < Real.sqrt (s.den : ℝ) := Real.sqrt_pos.mpr (by exact_mod_cast h)
    rw [div_pos_iff]
    constructor
    · rintro (⟨h1, _⟩ | ⟨_, h2⟩)
      · exact ⟨by exact_mod_cast h1, h⟩
      · exact absurd h2 (not_lt.mpr hs.le)
    · rintro ⟨h1, _⟩
      exact Or.inl ⟨by exact_mod_cast h1, hs⟩

theorem CosSim.posB_iff (s : CosSim) : s.posB = true ↔ 0 < s.val := by
  rw [CosSim.val_pos_iff]
  simp [CosSim.posB]

theorem CosSim.val_sq {s : CosSim} (h : 0 < s.den) : s.val ^ 2 = (s.num : ℝ) ^ 2 / (s.den : ℝ) := by
  unfold CosSim.val
  rw [div_pow, Real.sq_sqrt (by positivity)]

theorem CosSim.num_nonneg_iff {s : CosSim} (h : 0 < s.den) : 0 ≤ s.val ↔ 0 ≤ s.num := by
  unfold CosSim.val
  have hs : 0 < Real.sqrt (s.den : ℝ) := Real.sqrt_pos.mpr (by exact_mod_cast h)
  rw [div_nonneg_iff]
  constructor
  · rintro (⟨h1, _⟩ | ⟨_, h2⟩)
    · exact_mod_cast h1
    · exact absurd h2 (not_le.mpr hs)
  · intro h1
    exact Or.inl ⟨by exact_mod_cast h1, hs.le⟩

/-- A fraction sorting key that orders `CosSim` values exactly like their
real values: the sign of the value times its square. -/
def CosSim.keyF (s : CosSim) : Frac :=
  ⟨if s.num < 0 then -(s.num ^ 2) else s.num ^ 2, s.den⟩

theorem CosSim.keyF_val {s : CosSim} (h : 0 < s.den) :
    (CosSim.keyF s).val = (if s.num < 0 then (-1 : ℝ) else 1) * s.val ^ 2 := by
  rw [CosSim.val_sq h]
  unfold CosSim.keyF Frac.val
  by_cases h1 : s.num < 0
  · rw [if_pos h1, if_pos h1]
    push_cast
    ring
  · rw [if_neg h1, if_neg h1]
    push_cast
    ring

/-- The key comparison is exactly the comparison of real values (for
genuine, non-NaN similarities). -/
theorem CosSim.keyF_le_iff {a b : CosSim} (ha : 0 < a.den) (hb : 0 < b.den) :
    Frac.leB a.keyF b.keyF = true ↔ a.val ≤ b.val := by
  have hda : 0 < a.keyF.d := ha
  have hdb : 0 < b.keyF.d := hb
  rw [Frac.leB_iff hda hdb, CosSim.keyF_val ha, CosSim.keyF_val hb]
  have hva := CosSim.num_nonneg_iff ha
  have hvb := CosSim.num_nonneg_iff hb
  by_cases h1 : a.num < 0 <;> by_cases h2 : b.num < 0
  · rw [if_pos h1, if_pos h2]
    have hva' : a.val < 0 := by
      by_contra hc
      exact absurd (hva.mp (not_lt.mp hc)) (not_le.mpr h1)
    have hvb' : b.val < 0 := by
      by_contra hc
      exact absurd (hvb.mp (not_lt.mp hc)) (not_le.mpr h2)
    constructor
    · intro h; nlinarith [sq_nonneg (a.val - b.val), sq_nonneg (a.val + b.val)]
    · intro h; nlinarith [sq_nonneg (a.val - b.val), sq_nonneg (a.val + b.val)]
  · rw [if_pos h1, if_neg h2]
    have hva' : a.val < 0 := by
      by_contra hc
      exact absurd (hva.mp (not_lt.mp hc)) (not_le.mpr h1)
    have hvb' : 0 ≤ b.val := hvb.mpr (not_lt.mp h2)
    constructor
    · intro _; linarith
    · intro _; nlinarith [sq_nonneg a.val, sq_nonneg b.val]
  · rw [if_neg h1, if_pos h2]
    have hva' : 0 ≤ a.val := hva.mpr (not_lt.mp h1)
    have hvb' : b.val < 0 := by
      by_contra hc
      exact absurd (hvb.mp (not_lt.mp hc)) (not_le.mpr h2)
    constructor
    · intro h; nlinarith [sq_nonneg a.val, sq_nonneg b.val]
    · intro h; linarith
  · rw [if_neg h1, if_neg h2]
    have hva' : 0 ≤ a.val := hva.mpr (not_lt.mp h1)
    have hvb' : 0 ≤ b.val := hvb.mpr (not_lt.mp h2)
    constructor
    · intro h; nlinarith [sq_nonneg (a.val - b.val), sq_nonneg (a.val + b.val)]
    · intro h; nlinarith [sq_nonneg (a.val - b.val), sq_nonneg (a.val + b.val)]

theorem CosSim.keyF_eq_val_iff {a b : CosSim} (ha : 0 < a.den) (hb : 0 < b.den) :
    (Frac.leB a.keyF b.keyF = true ∧ Frac.leB b.keyF a.keyF = true) ↔ a.val = b.val := by
  rw [CosSim.keyF_le_iff ha hb, CosSim.keyF_le_iff hb ha]
  constructor
  · rintro ⟨h1, h2⟩; exact le_antisymm h1 h2
  · intro h; exact ⟨h.le, h.ge⟩

/-! ### Exact sums of square roots

A suggestion weight accumulated by the notebook is a sum of cosine
similarities, i.e. a sum of fraction multiples of square roots of
naturals.  `SqrtSum` keeps such a sum as an association list from the
radicand to the fraction coefficient, merged on equal radicands. -/

abbrev SqrtSum : Type := List (ℕ × Frac)

/-- The real number a `SqrtSum` stands for. -/
noncomputable def SqrtSum.val (w : SqrtSum) : ℝ :=
  (w.map fun t => t.2.val * Real.sqrt (t.1 : ℝ)).sum

/-- All coefficient denominators positive (always true for the sums the
pipeline builds; hypothesis of the value lemmas). -/
def SqrtSum.wfP (w : SqrtSum) : Prop := ∀ t ∈ w, 0 < t.2.d

instance (w : SqrtSum) : Decidable (SqrtSum.wfP w) :=
  inferInstanceAs (Decidable (∀ t ∈ w, 0 < t.2.d))

/-- Merge one term into a radicand-sorted sum, dropping cancelled terms. -/
def SqrtSum.addTerm : SqrtSum → ℕ × Frac → SqrtSum
  | [], t => [t]
  | u :: rest, t =>
    if t.1 < u.1 then t :: u :: rest
    else if u.1 < t.1 then u :: SqrtSum.addTerm rest t
    else if (Frac.add u.2 t.2).n = 0 then rest
    else (u.1, Frac.add u.2 t.2) :: rest

def SqrtSum.add (x y : SqrtSum) : SqrtSum := y.foldl SqrtSum.addTerm x

def SqrtSum.neg (w : SqrtSum) : SqrtSum := w.map fun t => (t.1, Frac.neg t.2)

def SqrtSum.sub (x y : SqrtSum) : SqrtSum := SqrtSum.add x (SqrtSum.neg y)

theorem SqrtSum.val_nil : SqrtSum.val [] = 0 := by simp [SqrtSum.val]

theorem SqrtSum.val_cons (t : ℕ × Frac) (w : SqrtSum) :
    SqrtSum.val (t :: w) = t.2.val * Real.sqrt (t.1 : ℝ) + SqrtSum.val w := by
  simp [SqrtSum.val]

theorem SqrtSum.wf_addTerm {w : SqrtSum} {t : ℕ × Frac}
    (hw : SqrtSum.wfP w) (ht : 0 < t.2.d) : SqrtSum.wfP (SqrtSum.addTerm w t) := by
  induction w with
  | nil =>
    intro u hu
    simp only [SqrtSum.addTerm, List.mem_singleton] at hu
    rw [hu]; exact ht
  | cons u rest ih =>
    have hu2 : 0 < u.2.d := hw u (List.mem_cons_self u rest)
    have hrest : SqrtSum.wfP rest := fun x hx => hw x (List.mem_cons_of_mem u hx)
    intro x hx
    unfold SqrtSum.addTerm at hx
    by_cases h1 : t.1 < u.1
    · rw [if_pos h1] at hx
      simp only [List.mem_cons] at hx
      rcases hx with rfl | rfl | hx
      · exact ht
      · exact hu2
      · exact hrest x hx
    · rw [if_neg h1] at hx
      by_cases h2 : u.1 < t.1
      · rw [if_pos h2] at hx
        simp only [List.mem_cons] at hx
        rcases hx with rfl | hx
        · exact hu2
        · exact ih hrest x hx
      · rw [if_neg h2] at hx
        by_cases h3 : (Frac.add u.2 t.2).n = 0
        · rw [if_pos h3] at hx
          exact hrest x hx
        · rw [if_neg h3] at hx
          simp only [List.mem_cons] at hx
          rcases hx with rfl | hx
          · show 0 < u.2.d * t.2.d
            positivity
          · exact hrest x hx

theorem SqrtSum.val_addTerm {w : SqrtSum} {t : ℕ × Frac}
    (hw : SqrtSum.wfP w) (ht : 0 < t.2.d) :
    SqrtSum.val (SqrtSum.addTerm w t) = SqrtSum.val w + t.2.val * Real.sqrt (t.1 : ℝ) := by
  induction w with
  | nil =>
    rw [show SqrtSum.addTerm [] t = [t] from rfl]
    simp only [SqrtSum.val_cons, SqrtSum.val_nil]
    ring
  | cons u rest ih =>
    have hu2 : 0 < u.2.d := hw u (List.mem_cons_self u rest)
    have hrest : SqrtSum.wfP rest := fun x hx => hw x (List.mem_cons_of_mem u hx)
    unfold SqrtSum.addTerm
    by_cases h1 : t.1 < u.1
    · rw [if_pos h1]
      simp only [SqrtSum.val_cons]
      ring
    · rw [if_neg h1]
      by_cases h2 : u.1 < t.1
      · rw [if_pos h2]
        simp only [SqrtSum.val_cons, ih hrest]
        ring
      · rw [if_neg h2]
        have hd : u.1 = t.1 := by omega
        have hq : (Frac.add u.2 t.2).val = u.2.val + t.2.val := Frac.val_add hu2 ht
        by_cases h3 : (Frac.add u.2 t.2).n = 0
        · rw [if_pos h3]
          have hzero : (Frac.add u.2 t.2).val = 0 := Frac.val_zero_of h3
          rw [hq] at hzero
          simp only [SqrtSum.val_cons]
          rw [hd]
          nlinarith [hzero, Real.sqrt_nonneg ((t.1 : ℕ) : ℝ)]
        · rw [if_neg h3]
          simp only [SqrtSum.val_cons, hq, hd]
          ring

theorem SqrtSum.wf_add {x y : SqrtSum} (hx : SqrtSum.wfP x) (hy : SqrtSum.wfP y) :
    SqrtSum.wfP (SqrtSum.add x y) := by
  unfold SqrtSum.add
  induction y generalizing x with
  | nil => exact hx
  | cons t rest ih =>
    have ht : 0 < t.2.d := hy t (List.mem_cons_self t rest)
    have hrest : SqrtSum.wfP rest := fun u hu => hy u (List.mem_cons_of_mem t hu)
    rw [List.foldl_cons]
    exact ih (SqrtSum.wf_addTerm hx ht) hrest

theorem SqrtSum.add_val {x y : SqrtSum} (hx : SqrtSum.wfP x) (hy : SqrtSum.wfP y) :
    SqrtSum.val (SqrtSum.add x y) = SqrtSum.val x + SqrtSum.val y := by
  unfold SqrtSum.add
  induction y generalizing x with
  | nil => rw [List.foldl_nil, SqrtSum.val_nil, add_zero]
  | cons t rest ih =>
    have ht : 0 < t.2.d := hy t (List.mem_cons_self t rest)
    have hrest : SqrtSum.wfP rest := fun u hu => hy u (List.mem_cons_of_mem t hu)
    rw [List.foldl_cons, ih (SqrtSum.wf_addTerm hx ht) hrest,
      SqrtSum.val_addTerm hx ht, SqrtSum.val_cons]
    ring

theorem SqrtSum.wf_neg {w : SqrtSum} (hw : SqrtSum.wfP w) : SqrtSum.wfP (SqrtSum.neg w) := by
  intro t ht
  unfold SqrtSum.neg at ht
  obtain ⟨u, hu, rfl⟩ := List.mem_map.mp ht
  exact hw u hu

theorem SqrtSum.neg_val (w : SqrtSum) : SqrtSum.val (SqrtSum.neg w) = -SqrtSum.val w := by
  induction w with
  | nil => simp [SqrtSum.neg, SqrtSum.val_nil]
  | cons t ts ih =>
    rw [show SqrtSum.neg (t :: ts) = (t.1, Frac.neg t.2) :: SqrtSum.neg ts from rfl,
      SqrtSum.val_cons, SqrtSum.val_cons, ih, Frac.val_neg]
    ring

theorem SqrtSum.wf_sub {x y : SqrtSum} (hx : SqrtSum.wfP x) (hy : SqrtSum.wfP y) :
    SqrtSum.wfP (SqrtSum.sub x y) := SqrtSum.wf_add hx (SqrtSum.wf_neg hy)

theorem SqrtSum.val_sub {x y : SqrtSum} (hx : SqrtSum.wfP x) (hy : SqrtSum.wfP y) :
    SqrtSum.val (SqrtSum.sub x y) = SqrtSum.val x - SqrtSum.val y := by
  rw [SqrtSum.sub, SqrtSum.add_val hx (SqrtSum.wf_neg hy), SqrtSum.neg_val]
  ring

/-! ### Certified rational bracketing of square roots -/

/-- Fuel-bounded integer Newton iteration for square roots. -/
def isqrtAux (n : ℕ) : ℕ → ℕ → ℕ
  | 0, x => x
  | fuel + 1, x =>
    if x = 0 then 0
    else
      let y := (x + n / x) / 2
      if y < x then isqrtAux n fuel y else x

def isqrtF (n : ℕ) : ℕ := isqrtAux n 40 (max 1048576 (n / 1048576))

/-- Self-certifying lower bound for the integer square root. -/
def sqrtLBn (n : ℕ) : ℕ := if isqrtF n * isqrtF n ≤ n then isqrtF n else 0

/-- Self-certifying upper bound for the integer square root. -/
def sqrtUBn (n : ℕ) : ℕ :=
  if n ≤ (isqrtF n + 1) * (isqrtF n + 1) then isqrtF n + 1 else n + 1

theorem sqrtLBn_sq_le (n : ℕ) : sqrtLBn n * sqrtLBn n ≤ n := by
  unfold sqrtLBn
  by_cases h : isqrtF n * isqrtF n ≤ n
  · rw [if_pos h]; exact h
  · rw [if_neg h]; omega

theorem le_sqrtUBn_sq (n : ℕ) : n ≤ sqrtUBn n * sqrtUBn n := by
  unfold sqrtUBn
  by_cases h : n ≤ (isqrtF n + 1) * (isqrtF n + 1)
  · rw [if_pos h]; exact h
  · rw [if_neg h]; nlinarith

/-- Precision denominator for the rational bracketing of square roots. -/
def SQP : ℕ := 10000

/-- Precomputed `⌊√d · 10^4⌋` for `d < 64` (the radicands the notebook's
data produces); every use is re-certified by squaring, so a wrong table
entry could only lose precision, never soundness. -/
def sqrtLB10k : List ℕ := [0, 10000, 14142, 17320, 20000, 22360, 24494, 26457,
  28284, 30000, 31622, 33166, 34641, 36055, 37416, 38729, 40000, 41231, 42426,
  43588, 44721, 45825, 46904, 47958, 48989, 50000, 50990, 51961, 52915, 53851,
  54772, 55677, 56568, 57445, 58309, 59160, 60000, 60827, 61644, 62449, 63245,
  64031, 64807, 65574, 66332, 67082, 67823, 68556, 69282, 70000, 70710, 71414,
  72111, 72801, 73484, 74161, 74833, 75498, 76157, 76811, 77459, 78102, 78740,
  79372]

/-- Candidate integer square root of `d·SQP²`: table lookup for small `d`,
Newton iteration otherwise. -/
def sqrtCand (d : ℕ) : ℕ :=
  if d < 64 then sqrtLB10k.getD d 0 else isqrtF (d * (SQP * SQP))

def sqrtLoF (d : ℕ) : Frac :=
  ⟨(if sqrtCand d * sqrtCand d ≤ d * (SQP * SQP) then sqrtCand d else 0 : ℕ), SQP⟩

def sqrtHiF (d : ℕ) : Frac :=
  ⟨(if d * (SQP * SQP) ≤ (sqrtCand d + 1) * (sqrtCand d + 1) then sqrtCand d + 1
    else d * (SQP * SQP) + 1 : ℕ), SQP⟩

theorem sqrt_scale (d : ℕ) :
    Real.sqrt (((d * (SQP * SQP) : ℕ) : ℝ)) = Real.sqrt (d : ℝ) * (SQP : ℝ) := by
  push_cast
  rw [show ((d : ℝ) * ((SQP : ℝ) * (SQP : ℝ))) = (d : ℝ) * ((SQP : ℝ)) ^ 2 by ring,
    Real.sqrt_mul (by positivity), Real.sqrt_sq (by positivity)]

theorem sqrtFracLo_le {d c : ℕ} (h : c * c ≤ d * (SQP * SQP)) :
    (Frac.val ⟨(c : ℤ), SQP⟩) ≤ Real.sqrt (d : ℝ) := by
  unfold Frac.val
  have hsqp : (0 : ℝ) < (SQP : ℝ) := by norm_num [SQP]
  show ((c : ℤ) : ℝ) / ((SQP : ℕ) : ℝ) ≤ Real.sqrt (d : ℝ)
  rw [div_le_iff₀ hsqp]
  push_cast
  have hscale := sqrt_scale d
  push_cast at hscale
  rw [← hscale]
  have h1 : ((c : ℝ)) ^ 2 ≤ (d : ℝ) * ((SQP : ℝ) * (SQP : ℝ)) := by
    have h2 : ((c * c : ℕ) : ℝ) ≤ ((d * (SQP * SQP) : ℕ) : ℝ) := by exact_mod_cast h
    push_cast at h2
    nlinarith [h2]
  rw [Real.le_sqrt (by positivity) (by positivity)]
  exact h1

theorem sqrtFracHi_ge {d c : ℕ} (h : d * (SQP * SQP) ≤ c * c) :
    Real.sqrt (d : ℝ) ≤ Frac.val ⟨(c : ℤ), SQP⟩ := by
  unfold Frac.val
  have hsqp : (0 : ℝ) < (SQP : ℝ) := by norm_num [SQP]
  show Real.sqrt (d : ℝ) ≤ ((c : ℤ) : ℝ) / ((SQP : ℕ) : ℝ)
  rw [le_div_iff₀ hsqp]
  push_cast
  have hscale := sqrt_scale d
  push_cast at hscale
  rw [← hscale]
  have h1 : (d : ℝ) * ((SQP : ℝ) * (SQP : ℝ)) ≤ ((c : ℝ)) ^ 2 := by
    have h2 : ((d * (SQP * SQP) : ℕ) : ℝ) ≤ ((c * c : ℕ) : ℝ) := by exact_mod_cast h
    push_cast at h2
    nlinarith [h2]
  calc Real.sqrt ((d : ℝ) * ((SQP : ℝ) * (SQP : ℝ)))
      ≤ Real.sqrt (((c : ℝ)) ^ 2) := Real.sqrt_le_sqrt h1
    _ = (c : ℝ) := Real.sqrt_sq (by positivity)

theorem sqrtLoF_le (d : ℕ) : (sqrtLoF d).val ≤ Real.sqrt (d : ℝ) := by
  unfold sqrtLoF
  by_cases h : sqrtCand d * sqrtCand d ≤ d * (SQP * SQP)
  · rw [if_pos h]
    exact sqrtFracLo_le h
  · rw [if_neg h]
    exact sqrtFracLo_le (by simp)

theorem le_sqrtHiF (d : ℕ) : Real.sqrt (d : ℝ) ≤ (sqrtHiF d).val := by
  unfold sqrtHiF
  by_cases h : d * (SQP * SQP) ≤ (sqrtCand d + 1) * (sqrtCand d + 1)
  · rw [if_pos h]
    exact sqrtFracHi_ge h
  · rw [if_neg h]
    exact sqrtFracHi_ge (by nlinarith)

/-- Rational lower bound of one term `q·√d`. -/
def termLo (t : ℕ × Frac) : Frac :=
  if 0 ≤ t.2.n then Frac.mul t.2 (sqrtLoF t.1) else Frac.mul t.2 (sqrtHiF t.1)

/-- Rational upper bound of one term `q·√d`. -/
def termHi (t : ℕ × Frac) : Frac :=
  if 0 ≤ t.2.n then Frac.mul t.2 (sqrtHiF t.1) else Frac.mul t.2 (sqrtLoF t.1)

theorem termLo_d (t : ℕ × Frac) : (termLo t).d = t.2.d * SQP := by
  unfold termLo
  by_cases h : 0 ≤ t.2.n <;> simp [h, Frac.mul, sqrtLoF, sqrtHiF]

theorem termHi_d (t : ℕ × Frac) : (termHi t).d = t.2.d * SQP := by
  unfold termHi
  by_cases h : 0 ≤ t.2.n <;> simp [h, Frac.mul, sqrtLoF, sqrtHiF]

theorem termLo_le {t : ℕ × Frac} (ht : 0 < t.2.d) :
    (termLo t).val ≤ t.2.val * Real.sqrt (t.1 : ℝ) := by
  unfold termLo
  by_cases h : 0 ≤ t.2.n
  · rw [if_pos h, Frac.val_mul]
    have hq : 0 ≤ t.2.val := (Frac.val_nonneg_iff ht).mpr h
    exact mul_le_mul_of_nonneg_left (sqrtLoF_le t.1) hq
  · rw [if_neg h, Frac.val_mul]
    have hq : t.2.val ≤ 0 := le_of_lt (Frac.val_neg_of (not_le.mp h) ht)
    exact mul_le_mul_of_nonpos_left (le_sqrtHiF t.1) hq

theorem le_termHi {t : ℕ × Frac} (ht : 0 < t.2.d) :
    t.2.val * Real.sqrt (t.1 : ℝ) ≤ (termHi t).val := by
  unfold termHi
  by_cases h : 0 ≤ t.2.n
  · rw [if_pos h, Frac.val_mul]
    have hq : 0 ≤ t.2.val := (Frac.val_nonneg_iff ht).mpr h
    exact mul_le_mul_of_nonneg_left (le_sqrtHiF t.1) hq
  · rw [if_neg h, Frac.val_mul]
    have hq : t.2.val ≤ 0 := le_of_lt (Frac.val_neg_of (not_le.mp h) ht)
    exact mul_le_mul_of_nonpos_left (sqrtLoF_le t.1) hq

/-- Rational lower bound of a `SqrtSum`'s value. -/
def SqrtSum.lo (w : SqrtSum) : Frac :=
  w.foldl (fun acc t => Frac.add acc (termLo t)) ⟨0, 1⟩

/-- Rational upper bound of a `SqrtSum`'s value. -/
def SqrtSum.hi (w : SqrtSum) : Frac :=
  w.foldl (fun acc t => Frac.add acc (termHi t)) ⟨0, 1⟩

theorem SqrtSum.lo_aux (w : SqrtSum) :
    ∀ acc : Frac, SqrtSum.wfP w → 0 < acc.d →
      0 < (w.foldl (fun a t => Frac.add a (termLo t)) acc).d ∧
      (w.foldl (fun a t => Frac.add a (termLo t)) acc).val ≤ acc.val + SqrtSum.val w := by
  induction w with
  | nil =>
    intro acc _ hacc
    rw [List.foldl_nil, SqrtSum.val_nil, add_zero]
    exact ⟨hacc, le_refl _⟩
  | cons t rest ih =>
    intro acc hw hacc
    have ht : 0 < t.2.d := hw t (List.mem_cons_self t rest)
    have hrest : SqrtSum.wfP rest := fun u hu => hw u (List.mem_cons_of_mem t hu)
    have htlo : 0 < (termLo t).d := by
      rw [termLo_d]
      have : 0 < SQP := by norm_num [SQP]
      positivity
    have hstep : 0 < (Frac.add acc (termLo t)).d := by
      show 0 < acc.d * (termLo t).d
      positivity
    rw [List.foldl_cons]
    obtain ⟨hd, hval⟩ := ih (Frac.add acc (termLo t)) hrest hstep
    refine ⟨hd, ?_⟩
    rw [SqrtSum.val_cons]
    have h1 : (Frac.add acc (termLo t)).val = acc.val + (termLo t).val :=
      Frac.val_add hacc htlo
    have h2 := termLo_le ht
    calc (List.foldl (fun a t => Frac.add a (termLo t)) (Frac.add acc (termLo t)) rest).val
        ≤ (Frac.add acc (termLo t)).val + SqrtSum.val rest := hval
      _ = acc.val + (termLo t).val + SqrtSum.val rest := by rw [h1]
      _ ≤ acc.val + t.2.val * Real.sqrt (t.1 : ℝ) + SqrtSum.val rest := by linarith
      _ = acc.val + (t.2.val * Real.sqrt (t.1 : ℝ) + SqrtSum.val rest) := by ring

theorem SqrtSum.hi_aux (w : SqrtSum) :
    ∀ acc : Frac, SqrtSum.wfP w → 0 < acc.d →
      0 < (w.foldl (fun a t => Frac.add a (termHi t)) acc).d ∧
      acc.val + SqrtSum.val w ≤ (w.foldl (fun a t => Frac.add a (termHi t)) acc).val := by
  induction w with
  | nil =>
    intro acc _ hacc
    rw [List.foldl_nil, SqrtSum.val_nil, add_zero]
    exact ⟨hacc, le_refl _⟩
  | cons t rest ih =>
    intro acc hw hacc
    have ht : 0 < t.2.d := hw t (List.mem_cons_self t rest)
    have hrest : SqrtSum.wfP rest := fun u hu => hw u (List.mem_cons_of_mem t hu)
    have hthi : 0 < (termHi t).d := by
      rw [termHi_d]
      have : 0 < SQP := by norm_num [SQP]
      positivity
    have hstep : 0 < (Frac.add acc (termHi t)).d := by
      show 0 < acc.d * (termHi t).d
      positivity
    rw [List.foldl_cons]
    obtain ⟨hd, hval⟩ := ih (Frac.add acc (termHi t)) hrest hstep
    refine ⟨hd, ?_⟩
    rw [SqrtSum.val_cons]
    have h1 : (Frac.add acc (termHi t)).val = acc.val + (termHi t).val :=
      Frac.val_add hacc hthi
    have h2 := le_termHi ht
    calc acc.val + (t.2.val * Real.sqrt (t.1 : ℝ) + SqrtSum.val rest)
        = acc.val + t.2.val * Real.sqrt (t.1 : ℝ) + SqrtSum.val rest := by ring
      _ ≤ acc.val + (termHi t).val + SqrtSum.val rest := by linarith
      _ = (Frac.add acc (termHi t)).val + SqrtSum.val rest := by rw [h1]
      _ ≤ (List.foldl (fun a t => Frac.add a (termHi t)) (Frac.add acc (termHi t)) rest).val :=
          hval

/-- Certified sign of a `SqrtSum`'s value: `1` and `-1` are sound (given
well-formed denominators), `0` means empty or undecided. -/
def SqrtSum.sgn (w : SqrtSum) : ℤ :=
  if 0 < (SqrtSum.lo w).n ∧ 0 < (SqrtSum.lo w).d then 1
  else if (SqrtSum.hi w).n < 0 ∧ 0 < (SqrtSum.hi w).d then -1 else 0

theorem SqrtSum.sgn_pos {w : SqrtSum} (hw : SqrtSum.wfP w) (h : SqrtSum.sgn w = 1) :
    0 < SqrtSum.val w := by
  unfold SqrtSum.sgn at h
  by_cases h1 : 0 < (SqrtSum.lo w).n ∧ 0 < (SqrtSum.lo w).d
  · have hlo : 0 < (SqrtSum.lo w).val := Frac.val_pos h1.1 h1.2
    have := (SqrtSum.lo_aux w ⟨0, 1⟩ hw (by norm_num)).2
    have hz : (Frac.val ⟨0, 1⟩) = 0 := by unfold Frac.val; simp
    rw [hz, zero_add] at this
    exact lt_of_lt_of_le hlo this
  · rw [if_neg h1] at h
    by_cases h2 : (SqrtSum.hi w).n < 0 ∧ 0 < (SqrtSum.hi w).d
    · rw [if_pos h2] at h; omega
    · rw [if_neg h2] at h; omega

theorem SqrtSum.sgn_neg {w : SqrtSum} (hw : SqrtSum.wfP w) (h : SqrtSum.sgn w = -1) :
    SqrtSum.val w < 0 := by
  unfold SqrtSum.sgn at h
  by_cases h1 : 0 < (SqrtSum.lo w).n ∧ 0 < (SqrtSum.lo w).d
  · rw [if_pos h1] at h; omega
  · rw [if_neg h1] at h
    by_cases h2 : (SqrtSum.hi w).n < 0 ∧ 0 < (SqrtSum.hi w).d
    · have hhi : (SqrtSum.hi w).val < 0 := Frac.val_neg_of h2.1 h2.2
      have := (SqrtSum.hi_aux w ⟨0, 1⟩ hw (by norm_num)).2
      have hz : (Frac.val ⟨0, 1⟩) = 0 := by unfold Frac.val; simp
      rw [hz, zero_add] at this
      exact lt_of_le_of_lt this hhi
    · rw [if_neg h2] at h; omega

/-- Some `k` with `0 < k` and `k*k ∣ n` (the scan keeps the last, i.e.
largest, candidate); used to put radicands in a normal form. -/
def largestSqDiv (n : ℕ) : ℕ :=
  (List.range (n + 1)).foldl (fun a k => if 0 < k ∧ k * k ∣ n then k else a) 1

theorem largestSqDiv_spec (n : ℕ) : 0 < largestSqDiv n ∧ largestSqDiv n * largestSqDiv n ∣ n := by
  unfold largestSqDiv
  have H : ∀ (l : List ℕ) (a : ℕ), 0 < a → a * a ∣ n →
      0 < l.foldl (fun a k => if 0 < k ∧ k * k ∣ n then k else a) a ∧
      (l.foldl (fun a k => if 0 < k ∧ k * k ∣ n then k else a) a) *
        (l.foldl (fun a k => if 0 < k ∧ k * k ∣ n then k else a) a) ∣ n := by
    intro l
    induction l with
    | nil => intro a h1 h2; exact ⟨h1, h2⟩
    | cons k t ih =>
      intro a h1 h2
      simp only [List.foldl_cons]
      by_cases hk : 0 < k ∧ k * k ∣ n
      · rw [if_pos hk]; exact ih k hk.1 hk.2
      · rw [if_neg hk]; exact ih a h1 h2
  exact H (List.range (n + 1)) 1 one_pos (by rw [one_mul]; exact one_dvd n)

/-- One term `coeff·√radicand` with the radicand's square part pulled into
the coefficient. -/
def normTerm (den : ℕ) (q : Frac) : ℕ × Frac :=
  (den / (largestSqDiv den * largestSqDiv den), ⟨q.n * largestSqDiv den, q.d⟩)

/-- View an exact cosine similarity as a one-term `SqrtSum` (value
`num/den · √den`, with the square part of `den` normalised away);
degenerate (NaN) and zero similarities map to the empty sum. -/
def CosSim.toSqrtSum (s : CosSim) : SqrtSum :=
  if s.num = 0 ∨ s.den = 0 then []
  else [normTerm s.den ⟨s.num, s.den⟩]

theorem CosSim.wf_toSqrtSum (s : CosSim) : SqrtSum.wfP s.toSqrtSum := by
  unfold CosSim.toSqrtSum
  by_cases h : s.num = 0 ∨ s.den = 0
  · rw [if_pos h]; intro t ht; cases ht
  · rw [if_neg h]
    push_neg at h
    intro t ht
    simp only [List.mem_singleton] at ht
    rw [ht]
    show 0 < s.den
    exact Nat.pos_of_ne_zero h.2

theorem CosSim.toSqrtSum_val (s : CosSim) : SqrtSum.val s.toSqrtSum = s.val := by
  unfold CosSim.toSqrtSum
  by_cases h : s.num = 0 ∨ s.den = 0
  · rw [if_pos h]
    rcases h with h | h <;>
      simp [SqrtSum.val_nil, CosSim.val, h, Real.sqrt_zero]
  · rw [if_neg h]
    push_neg at h
    obtain ⟨hnum, hden⟩ := h
    rw [SqrtSum.val_cons, SqrtSum.val_nil, add_zero]
    unfold normTerm
    obtain ⟨hk, hdvd⟩ := largestSqDiv_spec s.den
    set k := largestSqDiv s.den with hkdef
    obtain ⟨d, hd⟩ := hdvd
    have hdiv : s.den / (k * k) = d := by
      rw [hd]; exact Nat.mul_div_cancel_left d (by positivity)
    have hdpos : 0 < d := by
      rcases Nat.eq_zero_or_pos d with h0 | h0
      · rw [h0, mul_zero] at hd; omega
      · exact h0
    simp only [hdiv]
    have hsplit : Real.sqrt (s.den : ℝ) = (k : ℝ) * Real.sqrt (d : ℝ) := by
      rw [hd]
      push_cast
      rw [show ((k : ℝ) * (k : ℝ) * (d : ℝ)) = ((k : ℝ)) ^ 2 * (d : ℝ) by ring,
        Real.sqrt_mul (by positivity), Real.sqrt_sq (by positivity)]
    unfold CosSim.val Frac.val
    rw [hsplit]
    have hsdpos : (0 : ℝ) < Real.sqrt (d : ℝ) := Real.sqrt_pos.mpr (by exact_mod_cast hdpos)
    have hsd : Real.sqrt (d : ℝ) ≠ 0 := ne_of_gt hsdpos
    have hkne : (k : ℝ) ≠ 0 := by positivity
    have hdenne : ((s.den : ℕ) : ℝ) ≠ 0 := by
      have : (0 : ℝ) < ((s.den : ℕ) : ℝ) := by exact_mod_cast Nat.pos_of_ne_zero hden
      linarith
    push_cast
    rw [div_mul_eq_mul_div, div_eq_div_iff hdenne (mul_ne_zero hkne hsd)]
    have hdcast : ((s.den : ℕ) : ℝ) = (k : ℝ) * (k : ℝ) * (d : ℝ) := by exact_mod_cast hd
    rw [hdcast]
    have hsq : Real.sqrt (d : ℝ) * Real.sqrt (d : ℝ) = (d : ℝ) := by
      exact Real.mul_self_sqrt (by positivity)
    linear_combination ((s.num : ℝ) * (k : ℝ) * (k : ℝ)) * hsq

/-! ### The notebook's dataset and pipeline

Every function below is stated over an arbitrary users-to-interests table
`ui` (the notebook's globals become an explicit parameter) and then
specialised, under the notebook's own names, to the literal table. -/

/-- The literal `users_interests` table of the notebook. -/
def users_interests : List (List String) := [
  ["Hadoop", "Big Data", "HBase", "Java", "Spark", "Storm", "Cassandra"],
  ["NoSQL", "MongoDB", "Cassandra", "HBase", "Postgres"],
  ["Python", "scikit-learn", "scipy", "numpy", "statsmodels", "pandas"],
  ["R", "Python", "statistics", "regression", "probability"],
  ["machine learning", "regression", "decision trees", "libsvm"],
  ["Python", "R", "Java", "C++", "Haskell", "programming languages"],
  ["statistics", "probability", "mathematics", "theory"],
  ["machine learning", "scikit-learn", "Mahout", "neural networks"],
  ["neural networks", "deep learning", "Big Data", "artificial intelligence"],
  ["Hadoop", "Java", "MapReduce", "Big Data"],
  ["statistics", "R", "statsmodels"],
  ["C++", "deep learning", "artificial intelligence", "probability"],
  ["pandas", "R", "Python"],
  ["databases", "HBase", "Postgres", "MySQL", "MongoDB"],
  ["libsvm", "regression", "support vector machines"]]

/-- `sorted(list({interest for interests in ui for interest in interests}))`:
the distinct interests in ascending code-point order. -/
def unique_interests_of (ui : List (List String)) : List String :=
  sortedBy (fun a b => !pyStrLt b a) ui.flatten.dedup

/-- `generate_user_interest_vector` over an explicit canonical ordering. -/
def make_user_interest_vector (uniq : List String) (user_interests : List String) : List ℤ :=
  uniq.map fun interest => if interest ∈ user_interests then 1 else 0

def user_interest_matrix_of (ui : List (List String)) : List (List ℤ) :=
  ui.map (make_user_interest_vector (unique_interests_of ui))

def user_similarities_of (ui : List (List String)) : List (List CosSim) :=
  let m := user_interest_matrix_of ui
  m.map fun vi => m.map fun vj => cosine_similarity vi vj

/-- The pair comprehension of `get_similar_users` / `get_similar_interests`:
`(other_id, similarity)` for `other_id ≠ queried id` and `similarity > 0`.
The queried id is kept as the Python integer, so negative ids compare the
way Python compares them. -/
def simPairs (row : List CosSim) (uid : ℤ) : List (ℕ × CosSim) :=
  row.enum.filter fun p => decide (uid ≠ (p.1 : ℤ)) && CosSim.posB p.2

/-- `sorted(pairs, key=lambda x: x[1], reverse=True)`: a stable descending
sort on the exact similarity value (via its exact fraction key). -/
def sortBySimDesc {α : Type} (pairs : List (α × CosSim)) : List (α × CosSim) :=
  sortedBy (fun a b => Frac.leB b.2.keyF a.2.keyF) pairs

def get_similar_users_of (ui : List (List String)) (user_id : ℕ) : List (ℕ × CosSim) :=
  sortBySimDesc (simPairs ((user_similarities_of ui).getD user_id []) (user_id : ℤ))

/-- Transpose of the user-interest matrix: one row per interest. -/
def interest_user_matrix_of (ui : List (List String)) : List (List ℤ) :=
  let m := user_interest_matrix_of ui
  (List.range (unique_interests_of ui).length).map fun j => m.map fun v => v.getD j 0

def interest_similarities_of (ui : List (List String)) : List (List CosSim) :=
  let m := interest_user_matrix_of ui
  m.map fun vi => m.map fun vj => cosine_similarity vi vj

/-- The pair comprehension of `get_similar_interests`: the pairs carry the
interest's name, `unique_interests[other_interest_id]`. -/
def interestPairs (uniq : List String) (row : List CosSim) (iid : ℤ) : List (String × CosSim) :=
  (row.enum.filter fun p => decide (iid ≠ (p.1 : ℤ)) && CosSim.posB p.2).map
    fun p => (uniq.getD p.1 "", p.2)

def get_similar_interests_of (ui : List (List String)) (interest_id : ℕ) :
    List (String × CosSim) :=
  sortBySimDesc (interestPairs (unique_interests_of ui)
    ((interest_similarities_of ui).getD interest_id []) (interest_id : ℤ))

/-- `suggestions[interest] += similarity` on a `defaultdict(float)`:
insertion-ordered association list, adding into the entry if present. -/
def upsert : List (String × SqrtSum) → String → SqrtSum → List (String × SqrtSum)
  | [], k, s => [(k, s)]
  | (k', w) :: rest, k, s =>
    if k' = k then (k', SqrtSum.add w s) :: rest
    else (k', w) :: upsert rest k s

/-- The accumulation loop of `user_based_suggestions`. -/
def accumulate_user (ui : List (List String)) (sims : List (ℕ × CosSim)) :
    List (String × SqrtSum) :=
  sims.foldl (fun acc p =>
    (ui.getD p.1 []).foldl (fun acc interest => upsert acc interest (CosSim.toSqrtSum p.2)) acc) []

/-- `sorted(suggestions.items(), key=lambda x: x[1], reverse=True)`: stable
descending sort on the exact accumulated weight.  Two weights compare as
tied unless the interval certificate separates them (on the notebook's
data the certificate always separates distinct weights, which the claim
checkers verify). -/
def sortByWeightDesc (l : List (String × SqrtSum)) : List (String × SqrtSum) :=
  sortedBy (fun a b => decide (SqrtSum.sgn (SqrtSum.sub b.2 a.2) ≠ 1)) l

def user_suggestion_weights_of (ui : List (List String)) (user_id : ℕ) :
    List (String × SqrtSum) :=
  accumulate_user ui (get_similar_users_of ui user_id)

def user_based_suggestions_of (ui : List (List String)) (user_id : ℕ)
    (include_current_interests : Bool) : List (String × SqrtSum) :=
  let suggestions := sortByWeightDesc (user_suggestion_weights_of ui user_id)
  if include_current_interests then suggestions
  else suggestions.filter fun p => decide (p.1 ∉ ui.getD user_id [])

/-- The accumulation loop of `item_based_suggestions`, over a user's
membership vector, with the similar-interest ranking passed in. -/
def item_weights_core (gsi : ℕ → List (String × CosSim)) (vec : List ℤ) :
    List (String × SqrtSum) :=
  vec.enum.foldl (fun acc p =>
    if p.2 = 1 then
      (gsi p.1).foldl (fun acc t => upsert acc t.1 (CosSim.toSqrtSum t.2)) acc
    else acc) []

def item_suggestion_weights_of (ui : List (List String)) (user_id : ℕ) :
    List (String × SqrtSum) :=
  item_weights_core (get_similar_interests_of ui) ((user_interest_matrix_of ui).getD user_id [])

def item_based_suggestions_of (ui : List (List String)) (user_id : ℕ)
    (include_current_interests : Bool) : List (String × SqrtSum) :=
  let suggestions := sortByWeightDesc (item_suggestion_weights_of ui user_id)
  if include_current_interests then suggestions
  else suggestions.filter fun p => decide (p.1 ∉ ui.getD user_id [])

/-! Specialisations to the literal table, under the notebook's names. -/

def unique_interests : List String := unique_interests_of users_interests

def generate_user_interest_vector (user_interests : List String) : List ℤ :=
  make_user_interest_vector unique_interests user_interests

def user_interest_matrix : List (List ℤ) := user_interest_matrix_of users_interests

def user_similarities : List (List CosSim) := user_similarities_of users_interests

def get_similar_users (user_id : ℕ) : List (ℕ × CosSim) :=
  sortBySimDesc (simPairs (user_similarities.getD user_id []) (user_id : ℤ))

/-- The suggestion dictionary of `user_based_suggestions`, before sorting. -/
def user_suggestion_weights (user_id : ℕ) : List (String × SqrtSum) :=
  accumulate_user users_interests (get_similar_users user_id)

def user_based_suggestions (user_id : ℕ) (include_current_interests : Bool) :
    List (String × SqrtSum) :=
  let suggestions := sortByWeightDesc (user_suggestion_weights user_id)
  if include_current_interests then suggestions
  else suggestions.filter fun p => decide (p.1 ∉ users_interests.getD user_id [])

def interest_user_matrix : List (List ℤ) := interest_user_matrix_of users_interests

def interest_similarities : List (List CosSim) := interest_similarities_of users_interests

def get_similar_interests (interest_id : ℕ) : List (String × CosSim) :=
  sortBySimDesc (interestPairs unique_interests
    (interest_similarities.getD interest_id []) (interest_id : ℤ))

/-- The suggestion dictionary of `item_based_suggestions`, before sorting. -/
def item_suggestion_weights (user_id : ℕ) : List (String × SqrtSum) :=
  item_weights_core get_similar_interests (user_interest_matrix.getD user_id [])

def item_based_suggestions (user_id : ℕ) (include_current_interests : Bool) :
    List (String × SqrtSum) :=
  let suggestions := sortByWeightDesc (item_suggestion_weights user_id)
  if include_current_interests then suggestions
  else suggestions.filter fun p => decide (p.1 ∉ users_interests.getD user_id [])

/-- `Counter` increment, preserving first-encounter key order. -/
def bump : List (String × ℕ) → String → List (String × ℕ)
  | [], x => [(x, 1)]
  | (k, n) :: rest, x =>
    if k = x then (k, n + 1) :: rest else (k, n) :: bump rest x

/-- `Counter(interest for ... for ...).most_common()`: occurrence counts in
first-encounter order, stably sorted by count descending. -/
def popular_interests : List (String × ℕ) :=
  sortedBy (fun a b => decide (b.2 ≤ a.2)) (users_interests.flatten.foldl bump [])

def most_popular_new_interests (user_interests : List String) (max_results : ℤ) :
    List (String × ℕ) :=
  pyTake (popular_interests.filter fun p => decide (p.1 ∉ user_interests)) max_results

/-! Variants that make the notebook's implicit Python list indexing
explicit: the first subscript of each function is checked exactly as
Python checks it, everything after it is the pipeline above. -/

def get_similar_users_checked (user_id : ℤ) : Except String (List (ℕ × CosSim)) := do
  let row ← pyIndex user_similarities user_id
  pure (sortBySimDesc (simPairs row user_id))

def get_similar_interests_checked (interest_id : ℤ) : Except String (List (String × CosSim)) := do
  let row ← pyIndex interest_similarities interest_id
  pure (sortBySimDesc (interestPairs unique_interests row interest_id))

def user_based_suggestions_checked (user_id : ℤ) (include_current_interests : Bool) :
    Except String (List (String × SqrtSum)) := do
  let sims ← get_similar_users_checked user_id
  let suggestions := sortByWeightDesc (accumulate_user users_interests sims)
  if include_current_interests then
    pure suggestions
  else do
    let mine ← pyIndex users_interests user_id
    pure (suggestions.filter fun p => decide (p.1 ∉ mine))

def item_based_suggestions_checked (user_id : ℤ) (include_current_interests : Bool) :
    Except String (List (String × SqrtSum)) := do
  let vec ← pyIndex user_interest_matrix user_id
  let suggestions := sortByWeightDesc (item_weights_core get_similar_interests vec)
  if include_current_interests then
    pure suggestions
  else do
    let mine ← pyIndex users_interests user_id
    pure (suggestions.filter fun p => decide (p.1 ∉ mine))

/-! ### Decidable checkers bridged to exact real-valued statements -/

/-- Adjacent-pair Boolean check along a list. -/
def chainB {α : Type} (r : α → α → Bool) : List α → Bool
  | [] => true
  | [_] => true
  | a :: b :: rest => r a b && chainB r (b :: rest)

/-- An adjacent-pair check entails the full pairwise relation when the
target relation is transitive on the list's members. -/
theorem chainB_pairwise_of_mem {α : Type} {r : α → α → Bool} {R : α → α → Prop} :
    ∀ l : List α, (∀ a ∈ l, ∀ b ∈ l, r a b = true → R a b) →
      (∀ a ∈ l, ∀ b ∈ l, ∀ c ∈ l, R a b → R b c → R a c) →
      chainB r l = true → l.Pairwise R := by
  intro l
  induction l with
  | nil => intro _ _ _; exact List.Pairwise.nil
  | cons a rest ih =>
    intro hsub htrans hch
    cases rest with
    | nil => exact List.pairwise_singleton R a
    | cons b rest' =>
      rw [show chainB r (a :: b :: rest') = (r a b && chainB r (b :: rest')) from rfl,
        Bool.and_eq_true] at hch
      obtain ⟨hab, hch'⟩ := hch
      have hsub' : ∀ x ∈ b :: rest', ∀ y ∈ b :: rest', r x y = true → R x y := by
        intro x hx y hy
        exact hsub x (List.mem_cons_of_mem a hx) y (List.mem_cons_of_mem a hy)
      have htrans' : ∀ x ∈ b :: rest', ∀ y ∈ b :: rest', ∀ z ∈ b :: rest',
          R x y → R y z → R x z := by
        intro x hx y hy z hz
        exact htrans x (List.mem_cons_of_mem a hx) y (List.mem_cons_of_mem a hy)
          z (List.mem_cons_of_mem a hz)
      have hpw := ih hsub' htrans' hch'
      have hRab : R a b :=
        hsub a (List.mem_cons_self a _) b (List.mem_cons_of_mem a (List.mem_cons_self b _)) hab
      refine List.Pairwise.cons ?_ hpw
      intro x hx
      rcases List.mem_cons.mp hx with rfl | hx'
      · exact hRab
      · have hRbx : R b x := (List.pairwise_cons.mp hpw).1 x hx'
        exact htrans a (List.mem_cons_self a _)
          b (List.mem_cons_of_mem a (List.mem_cons_self b _))
          x (List.mem_cons_of_mem a hx) hRab hRbx

/-- The similarity entry `user_similarities[u][v]` (junk off-range). -/
def simUU (u v : ℕ) : CosSim := (user_similarities.getD u []).getD v ⟨0, 0⟩

/-- The Boolean adjacent condition for a descending similarity ranking with
ties broken by ascending index. -/
def rankedStepB (a b : ℕ × CosSim) : Bool :=
  Frac.leB b.2.keyF a.2.keyF && (!Frac.leB a.2.keyF b.2.keyF || decide (a.1 < b.1))

/-- Decidable companion of claim C1 for one user: exact membership,
well-formedness of every returned pair, and adjacent key-sortedness with
ties strictly increasing in the user index. -/
def C1check (u : ℕ) : Bool :=
  ((List.range 15).all fun v =>
    decide (v = u) || ((simUU u v).posB == decide ((v, simUU u v) ∈ get_similar_users u))) &&
  ((get_similar_users u).all fun p =>
    decide (p.1 < 15) && decide (p.1 ≠ u) && decide (p.2 = simUU u p.1) && p.2.posB) &&
  chainB rankedStepB (get_similar_users u)

theorem C1check_sound {u : ℕ} (h : C1check u = true) :
    (∀ v, v < 15 → v ≠ u → (0 < (simUU u v).val ↔ (v, simUU u v) ∈ get_similar_users u)) ∧
    (∀ p ∈ get_similar_users u,
      p.1 < 15 ∧ p.1 ≠ u ∧ p.2 = simUU u p.1 ∧ 0 < p.2.val) ∧
    (get_similar_users u).Pairwise
      (fun a b => b.2.val ≤ a.2.val ∧ (a.2.val = b.2.val → a.1 < b.1)) := by
  unfold C1check at h
  rw [Bool.and_eq_true, Bool.and_eq_true] at h
  obtain ⟨⟨h1, h2⟩, h3⟩ := h
  rw [List.all_eq_true] at h1 h2
  have hmem : ∀ p ∈ get_similar_users u,
      p.1 < 15 ∧ p.1 ≠ u ∧ p.2 = simUU u p.1 ∧ 0 < p.2.val := by
    intro p hp
    have := h2 p hp
    rw [Bool.and_eq_true, Bool.and_eq_true, Bool.and_eq_true] at this
    obtain ⟨⟨⟨a1, a2⟩, a3⟩, a4⟩ := this
    exact ⟨of_decide_eq_true a1, of_decide_eq_true a2, of_decide_eq_true a3,
      (CosSim.posB_iff _).mp a4⟩
  refine ⟨?_, hmem, ?_⟩
  · intro v hv hvu
    have := h1 v (List.mem_range.mpr hv)
    rw [Bool.or_eq_true] at this
    rcases this with hvu' | heq
    · exact absurd (of_decide_eq_true hvu') hvu
    · rw [← CosSim.posB_iff]
      have heq' := eq_of_beq heq
      constructor
      · intro hp
        rw [heq'] at hp
        exact of_decide_eq_true hp
      · intro hp
        exact heq'.trans (decide_eq_true hp)
  · refine chainB_pairwise_of_mem (get_similar_users u) ?_ ?_ h3
    · intro a ha b hb hr
      have hda : 0 < a.2.den := ((CosSim.val_pos_iff a.2).mp (hmem a ha).2.2.2).2
      have hdb : 0 < b.2.den := ((CosSim.val_pos_iff b.2).mp (hmem b hb).2.2.2).2
      unfold rankedStepB at hr
      rw [Bool.and_eq_true, Bool.or_eq_true] at hr
      obtain ⟨hr1, hr2⟩ := hr
      refine ⟨(CosSim.keyF_le_iff hdb hda).mp hr1, ?_⟩
      intro hvv
      rcases hr2 with hr2 | hr2
      · exfalso
        have hle : Frac.leB a.2.keyF b.2.keyF = true := (CosSim.keyF_le_iff hda hdb).mpr hvv.le
        rw [hle] at hr2
        simp at hr2
      · exact of_decide_eq_true hr2
    · intro a _ b _ c _ hab hbc
      refine ⟨le_trans hbc.1 hab.1, ?_⟩
      intro hac
      have h1 : a.2.val = b.2.val := by linarith [hab.1, hbc.1]
      have h2 : b.2.val = c.2.val := by linarith [hab.1, hbc.1]
      exact lt_trans (hab.2 h1) (hbc.2 h2)

/-- C1: for every valid user index `u`, `get_similar_users u` contains
exactly the pairs `(v, similarity)` with `v ≠ u` and positive cosine
similarity to `u`, each carrying `user_similarities[u][v]`; the result is
sorted descending by exact similarity value, ties are broken by ascending
original user index, and `u` itself never appears. -/
theorem get_similar_users_exact_ranking (u : ℕ) (hu : u < 15) :
    (∀ v, v < 15 → v ≠ u → (0 < (simUU u v).val ↔ (v, simUU u v) ∈ get_similar_users u)) ∧
    (∀ p ∈ get_similar_users u,
      p.1 < 15 ∧ p.1 ≠ u ∧ p.2 = simUU u p.1 ∧ 0 < p.2.val) ∧
    (get_similar_users u).Pairwise
      (fun a b => b.2.val ≤ a.2.val ∧ (a.2.val = b.2.val → a.1 < b.1)) := by
  have hall : ∀ x ∈ List.range 15, C1check x = true := by decide
  exact C1check_sound (hall u (List.mem_range.mpr hu))

/-- C1, witnessed at the concrete user 0. -/
theorem get_similar_users_exact_ranking_witness :
    (∀ v, v < 15 → v ≠ 0 → (0 < (simUU 0 v).val ↔ (v, simUU 0 v) ∈ get_similar_users 0)) ∧
    (∀ p ∈ get_similar_users 0,
      p.1 < 15 ∧ p.1 ≠ 0 ∧ p.2 = simUU 0 p.1 ∧ 0 < p.2.val) ∧
    (get_similar_users 0).Pairwise
      (fun a b => b.2.val ≤ a.2.val ∧ (a.2.val = b.2.val → a.1 < b.1)) :=
  get_similar_users_exact_ranking 0 (by norm_num)

theorem SqrtSum.foldl_add_wf :
    ∀ (l : List SqrtSum) (acc : SqrtSum), SqrtSum.wfP acc → (∀ w ∈ l, SqrtSum.wfP w) →
      SqrtSum.wfP (l.foldl SqrtSum.add acc) := by
  intro l
  induction l with
  | nil => intro acc hacc _; exact hacc
  | cons w rest ih =>
    intro acc hacc hl
    rw [List.foldl_cons]
    exact ih (SqrtSum.add acc w)
      (SqrtSum.wf_add hacc (hl w (List.mem_cons_self w rest)))
      (fun x hx => hl x (List.mem_cons_of_mem w hx))

theorem SqrtSum.foldl_add_val :
    ∀ (l : List SqrtSum) (acc : SqrtSum), SqrtSum.wfP acc → (∀ w ∈ l, SqrtSum.wfP w) →
      SqrtSum.val (l.foldl SqrtSum.add acc) = SqrtSum.val acc + (l.map SqrtSum.val).sum := by
  intro l
  induction l with
  | nil => intro acc _ _; simp
  | cons w rest ih =>
    intro acc hacc hl
    rw [List.foldl_cons,
      ih (SqrtSum.add acc w)
        (SqrtSum.wf_add hacc (hl w (List.mem_cons_self w rest)))
        (fun x hx => hl x (List.mem_cons_of_mem w hx)),
      SqrtSum.add_val hacc (hl w (List.mem_cons_self w rest))]
    simp only [List.map_cons, List.sum_cons]
    ring

/-- The weight `user_based_suggestions` is specified to give interest `x`
for user `u`: the sum of the similarities of the similar users that hold
`x`, as an exact `SqrtSum`. -/
def user_weight_spec (u : ℕ) (x : String) : SqrtSum :=
  (((get_similar_users u).filter fun q => decide (x ∈ users_interests.getD q.1 [])).map
    fun q => CosSim.toSqrtSum q.2).foldl SqrtSum.add []

theorem user_weight_spec_wf (u : ℕ) (x : String) :
    SqrtSum.wfP (user_weight_spec u x) := by
  unfold user_weight_spec
  refine SqrtSum.foldl_add_wf _ [] (fun t ht => absurd ht (List.not_mem_nil t)) ?_
  intro w hw
  obtain ⟨q, _, rfl⟩ := List.mem_map.mp hw
  exact CosSim.wf_toSqrtSum q.2

theorem user_weight_spec_val (u : ℕ) (x : String) :
    (user_weight_spec u x).val =
      (((get_similar_users u).filter fun q => decide (x ∈ users_interests.getD q.1 [])).map
        fun q => q.2.val).sum := by
  unfold user_weight_spec
  rw [SqrtSum.foldl_add_val _ [] (fun t ht => absurd ht (List.not_mem_nil t))
    (fun w hw => by
      obtain ⟨q, _, rfl⟩ := List.mem_map.mp hw
      exact CosSim.wf_toSqrtSum q.2)]
  rw [SqrtSum.val_nil, zero_add, List.map_map]
  refine congrArg List.sum (List.map_congr_left ?_)
  intro q _
  exact CosSim.toSqrtSum_val q.2

/-- The weight `item_based_suggestions` is specified to give interest `x`
for user `u`: summed over every interest id `i` the user holds, the sum of
the similarity contributions of the entries for `x` among the interests
similar to `i`. -/
def item_weight_spec (u : ℕ) (x : String) : SqrtSum :=
  (((user_interest_matrix.getD u []).enum.filter fun q => decide (q.2 = 1)).map
    fun q => (((get_similar_interests q.1).filter fun t => decide (t.1 = x)).map
      fun t => CosSim.toSqrtSum t.2).foldl SqrtSum.add []).foldl SqrtSum.add []

theorem item_weight_spec_wf (u : ℕ) (x : String) :
    SqrtSum.wfP (item_weight_spec u x) := by
  unfold item_weight_spec
  refine SqrtSum.foldl_add_wf _ [] (fun t ht => absurd ht (List.not_mem_nil t)) ?_
  intro w hw
  obtain ⟨q, _, rfl⟩ := List.mem_map.mp hw
  refine SqrtSum.foldl_add_wf _ [] (fun t ht => absurd ht (List.not_mem_nil t)) ?_
  intro w' hw'
  obtain ⟨t, _, rfl⟩ := List.mem_map.mp hw'
  exact CosSim.wf_toSqrtSum t.2

theorem item_weight_spec_val (u : ℕ) (x : String) :
    (item_weight_spec u x).val =
      (((user_interest_matrix.getD u []).enum.filter fun q => decide (q.2 = 1)).map
        fun q => (((get_similar_interests q.1).filter fun t => decide (t.1 = x)).map
          fun t => t.2.val).sum).sum := by
  unfold item_weight_spec
  rw [SqrtSum.foldl_add_val _ [] (fun t ht => absurd ht (List.not_mem_nil t))
    (fun w hw => by
      obtain ⟨q, _, rfl⟩ := List.mem_map.mp hw
      refine SqrtSum.foldl_add_wf _ [] (fun t ht => absurd ht (List.not_mem_nil t)) ?_
      intro w' hw'
      obtain ⟨t, _, rfl⟩ := List.mem_map.mp hw'
      exact CosSim.wf_toSqrtSum t.2)]
  rw [SqrtSum.val_nil, zero_add, List.map_map]
  refine congrArg List.sum (List.map_congr_left ?_)
  intro q _
  show ((((get_similar_interests q.1).filter fun t => decide (t.1 = x)).map
      fun t => CosSim.toSqrtSum t.2).foldl SqrtSum.add []).val = _
  rw [SqrtSum.foldl_add_val _ [] (fun t ht => absurd ht (List.not_mem_nil t))
    (fun w hw => by
      obtain ⟨t, _, rfl⟩ := List.mem_map.mp hw
      exact CosSim.wf_toSqrtSum t.2)]
  rw [SqrtSum.val_nil, zero_add, List.map_map]
  refine congrArg List.sum (List.map_congr_left ?_)
  intro t _
  exact CosSim.toSqrtSum_val t.2

/-- The Boolean adjacent condition for a descending weight ordering with
ties (identical exact weights) in first-encounter order of `keys`. -/
def weightStepB (keys : List String) (a b : String × SqrtSum) : Bool :=
  decide (SqrtSum.sgn (SqrtSum.sub a.2 b.2) = 1) ||
    (decide (SqrtSum.sub a.2 b.2 = []) && decide (keys.indexOf a.1 < keys.indexOf b.1))

/-- Soundness of a checked suggestion list: every entry's weight has the
specified value and the list is sorted descending by exact weight with
ties in first-encounter order. -/
theorem suggestions_check_sound {out : List (String × SqrtSum)} {keys : List String}
    {spec : String → SqrtSum}
    (hspecwf : ∀ x, SqrtSum.wfP (spec x))
    (hall : out.all (fun p => decide (SqrtSum.wfP p.2) &&
      decide (SqrtSum.sub p.2 (spec p.1) = [])) = true)
    (hchain : chainB (weightStepB keys) out = true) :
    (∀ p ∈ out, p.2.val = (spec p.1).val) ∧
    out.Pairwise (fun a b => b.2.val ≤ a.2.val ∧
      (a.2.val = b.2.val → keys.indexOf a.1 < keys.indexOf b.1)) := by
  rw [List.all_eq_true] at hall
  have hwf : ∀ p ∈ out, SqrtSum.wfP p.2 := by
    intro p hp
    have := hall p hp
    rw [Bool.and_eq_true] at this
    exact of_decide_eq_true this.1
  have hval : ∀ p ∈ out, p.2.val = (spec p.1).val := by
    intro p hp
    have := hall p hp
    rw [Bool.and_eq_true] at this
    have hsub : SqrtSum.sub p.2 (spec p.1) = [] := of_decide_eq_true this.2
    have := SqrtSum.val_sub (hwf p hp) (hspecwf p.1)
    rw [hsub, SqrtSum.val_nil] at this
    linarith
  refine ⟨hval, ?_⟩
  refine chainB_pairwise_of_mem out ?_ ?_ hchain
  · intro a ha b hb hr
    unfold weightStepB at hr
    rw [Bool.or_eq_true, Bool.and_eq_true] at hr
    rcases hr with hr | ⟨hr1, hr2⟩
    · have hpos : 0 < SqrtSum.val (SqrtSum.sub a.2 b.2) :=
        SqrtSum.sgn_pos (SqrtSum.wf_sub (hwf a ha) (hwf b hb)) (of_decide_eq_true hr)
      rw [SqrtSum.val_sub (hwf a ha) (hwf b hb)] at hpos
      exact ⟨by linarith, fun hv => absurd hv (by intro hv; linarith [hv.le, hv.ge])⟩
    · have hsub : SqrtSum.sub a.2 b.2 = [] := of_decide_eq_true hr1
      have := SqrtSum.val_sub (hwf a ha) (hwf b hb)
      rw [hsub, SqrtSum.val_nil] at this
      exact ⟨by linarith, fun _ => of_decide_eq_true hr2⟩
  · intro a _ b _ c _ hab hbc
    refine ⟨le_trans hbc.1 hab.1, ?_⟩
    intro hac
    have h1 : a.2.val = b.2.val := by linarith [hab.1, hbc.1]
    have h2 : b.2.val = c.2.val := by linarith [hab.1, hbc.1]
    exact lt_trans (hab.2 h1) (hbc.2 h2)

/-- Decidable companion of claim C2 for one user and one flag value. -/
def C2check (u : ℕ) (inc : Bool) : Bool :=
  ((user_based_suggestions u inc).all fun p =>
    decide (SqrtSum.wfP p.2) &&
      decide (SqrtSum.sub p.2 (user_weight_spec u p.1) = [])) &&
  chainB (weightStepB ((user_suggestion_weights u).map Prod.fst))
    (user_based_suggestions u inc)

/-- Decidable companion of claim C3 for one user and one flag value. -/
def C3check (u : ℕ) (inc : Bool) : Bool :=
  ((item_based_suggestions u inc).all fun p =>
    decide (SqrtSum.wfP p.2) &&
      decide (SqrtSum.sub p.2 (item_weight_spec u p.1) = [])) &&
  chainB (weightStepB ((item_suggestion_weights u).map Prod.fst))
    (item_based_suggestions u inc)

set_option maxHeartbeats 4000000 in
theorem C2C3_all : ∀ x ∈ List.range 15,
    (C2check x false && (C2check x true && (C3check x false && C3check x true))) = true := by
  decide

/-- C2: for every valid user index `u`, every `(interest, weight)` pair
that `user_based_suggestions` returns carries exactly the sum, over the
similar users that hold that interest, of their similarity to `u`; the
pairs are sorted descending by exact accumulated weight, and exact ties
keep the order in which the interests were first encountered while
scanning similar users in descending-similarity order (the insertion
order of the suggestion dictionary). -/
theorem user_based_suggestions_weights_and_order (u : ℕ) (hu : u < 15) (inc : Bool) :
    (∀ p ∈ user_based_suggestions u inc,
      p.2.val = (((get_similar_users u).filter fun q =>
        decide (p.1 ∈ users_interests.getD q.1 [])).map fun q => q.2.val).sum) ∧
    (user_based_suggestions u inc).Pairwise (fun a b => b.2.val ≤ a.2.val ∧
      (a.2.val = b.2.val →
        ((user_suggestion_weights u).map Prod.fst).indexOf a.1 <
          ((user_suggestion_weights u).map Prod.fst).indexOf b.1)) := by
  have hu' := C2C3_all u (List.mem_range.mpr hu)
  rw [Bool.and_eq_true, Bool.and_eq_true] at hu'
  have hchk : C2check u inc = true := by
    cases inc
    · exact hu'.1
    · exact hu'.2.1
  unfold C2check at hchk
  rw [Bool.and_eq_true] at hchk
  have h := suggestions_check_sound (fun x => user_weight_spec_wf u x) hchk.1 hchk.2
  refine ⟨?_, h.2⟩
  intro p hp
  rw [h.1 p hp, user_weight_spec_val]

/-- C2, witnessed at the concrete user 0 with default filtering. -/
theorem user_based_suggestions_weights_and_order_witness :
    (∀ p ∈ user_based_suggestions 0 false,
      p.2.val = (((get_similar_users 0).filter fun q =>
        decide (p.1 ∈ users_interests.getD q.1 [])).map fun q => q.2.val).sum) ∧
    (user_based_suggestions 0 false).Pairwise (fun a b => b.2.val ≤ a.2.val ∧
      (a.2.val = b.2.val →
        ((user_suggestion_weights 0).map Prod.fst).indexOf a.1 <
          ((user_suggestion_weights 0).map Prod.fst).indexOf b.1)) :=
  user_based_suggestions_weights_and_order 0 (by norm_num) false

/-- C3: for every valid user index `u`, every `(interest, weight)` pair
that `item_based_suggestions` returns carries exactly the sum, over every
interest `u` holds (per its membership vector), of the similarity
contributions of that interest's entries among the similar interests —
so an interest similar to several of the user's interests accumulates one
contribution per owned interest; the final sort is descending by exact
accumulated weight with exact ties in first-encounter order, and the
default filtering is the same post-sort filter as in
`user_based_suggestions`. -/
theorem item_based_suggestions_weights_and_order (u : ℕ) (hu : u < 15) (inc : Bool) :
    (∀ p ∈ item_based_suggestions u inc,
      p.2.val = (((user_interest_matrix.getD u []).enum.filter fun q =>
        decide (q.2 = 1)).map fun q =>
          (((get_similar_interests q.1).filter fun t => decide (t.1 = p.1)).map
            fun t => t.2.val).sum).sum) ∧
    (item_based_suggestions u inc).Pairwise (fun a b => b.2.val ≤ a.2.val ∧
      (a.2.val = b.2.val →
        ((item_suggestion_weights u).map Prod.fst).indexOf a.1 <
          ((item_suggestion_weights u).map Prod.fst).indexOf b.1)) ∧
    (item_based_suggestions u false =
      (item_based_suggestions u true).filter fun p =>
        decide (p.1 ∉ users_interests.getD u [])) ∧
    (user_based_suggestions u false =
      (user_based_suggestions u true).filter fun p =>
        decide (p.1 ∉ users_interests.getD u [])) := by
  have hu' := C2C3_all u (List.mem_range.mpr hu)
  rw [Bool.and_eq_true, Bool.and_eq_true, Bool.and_eq_true] at hu'
  have hchk : C3check u inc = true := by
    cases inc
    · exact hu'.2.2.1
    · exact hu'.2.2.2
  unfold C3check at hchk
  rw [Bool.and_eq_true] at hchk
  have h := suggestions_check_sound (fun x => item_weight_spec_wf u x) hchk.1 hchk.2
  refine ⟨?_, h.2, rfl, rfl⟩
  intro p hp
  rw [h.1 p hp, item_weight_spec_val]

/-- C3, witnessed at the concrete user 0 with default filtering. -/
theorem item_based_suggestions_weights_and_order_witness :
    (∀ p ∈ item_based_suggestions 0 false,
      p.2.val = (((user_interest_matrix.getD 0 []).enum.filter fun q =>
        decide (q.2 = 1)).map fun q =>
          (((get_similar_interests q.1).filter fun t => decide (t.1 = p.1)).map
            fun t => t.2.val).sum).sum) ∧
    (item_based_suggestions 0 false).Pairwise (fun a b => b.2.val ≤ a.2.val ∧
      (a.2.val = b.2.val →
        ((item_suggestion_weights 0).map Prod.fst).indexOf a.1 <
          ((item_suggestion_weights 0).map Prod.fst).indexOf b.1)) ∧
    (item_based_suggestions 0 false =
      (item_based_suggestions 0 true).filter fun p =>
        decide (p.1 ∉ users_interests.getD 0 [])) ∧
    (user_based_suggestions 0 false =
      (user_based_suggestions 0 true).filter fun p =>
        decide (p.1 ∉ users_interests.getD 0 [])) :=
  item_based_suggestions_weights_and_order 0 (by norm_num) false

/-- C4: with default filtering, neither suggestion list ever returns an
interest the user already holds. -/
theorem default_filter_excludes_current (u : ℕ) (_hu : u < 15) :
    (∀ p ∈ user_based_suggestions u false, p.1 ∉ users_interests.getD u []) ∧
    (∀ p ∈ item_based_suggestions u false, p.1 ∉ users_interests.getD u []) := by
  constructor
  · intro p hp
    have hfe : user_based_suggestions u false = (user_based_suggestions u true).filter
        (fun p => decide (p.1 ∉ users_interests.getD u [])) := rfl
    rw [hfe] at hp
    exact of_decide_eq_true (List.mem_filter.mp hp).2
  · intro p hp
    have hfe : item_based_suggestions u false = (item_based_suggestions u true).filter
        (fun p => decide (p.1 ∉ users_interests.getD u [])) := rfl
    rw [hfe] at hp
    exact of_decide_eq_true (List.mem_filter.mp hp).2

/-- C4, witnessed at user 0 and the head suggestions of both lists. -/
theorem default_filter_excludes_current_witness :
    ((user_based_suggestions 0 false).getD 0 ("", [])).1 ∉ users_interests.getD 0 [] ∧
    ((item_based_suggestions 0 false).getD 0 ("", [])).1 ∉ users_interests.getD 0 [] :=
  ⟨(default_filter_excludes_current 0 (by norm_num)).1 _ (by decide),
   (default_filter_excludes_current 0 (by norm_num)).2 _ (by decide)⟩

/-- C5 counterexample: on a zero-norm first operand the denominator
radicand is zero, so the notebook's float computation is `0/0` (NaN) — the
function does not return the number `0`. -/
theorem cosine_similarity_zero_norm_counterexample :
    dot [(0 : ℤ)] [(0 : ℤ)] = 0 ∧ ¬(0 < (cosine_similarity [(0 : ℤ)] [(1 : ℤ)]).den) := by
  decide

/-- C5 (amended): if either operand has zero norm the result is the
degenerate form `0/√0` (NaN in floats), not the number 0; otherwise the
similarity is exactly `dot v w / √(dot v v · dot w w)`. -/
theorem cosine_similarity_value (v w : List ℤ) :
    ((dot v v = 0 ∨ dot w w = 0) →
      (cosine_similarity v w).num = 0 ∧ (cosine_similarity v w).den = 0) ∧
    (dot v v ≠ 0 → dot w w ≠ 0 →
      0 < (cosine_similarity v w).den ∧
      (cosine_similarity v w).val =
        (dot v w : ℝ) / Real.sqrt ((dot v v : ℝ) * (dot w w : ℝ))) := by
  constructor
  · intro h
    rcases h with h | h
    · refine ⟨dot_eq_zero_left h w, ?_⟩
      show (dot v v * dot w w).toNat = 0
      rw [h, zero_mul]
      rfl
    · constructor
      · show dot v w = 0
        rw [dot_comm]
        exact dot_eq_zero_left h v
      · show (dot v v * dot w w).toNat = 0
        rw [h, mul_zero]
        rfl
  · intro hv hw
    have hv' : 0 < dot v v := lt_of_le_of_ne (dot_self_nonneg v) (Ne.symm hv)
    have hw' : 0 < dot w w := lt_of_le_of_ne (dot_self_nonneg w) (Ne.symm hw)
    have hprod : 0 < dot v v * dot w w := mul_pos hv' hw'
    constructor
    · show 0 < (dot v v * dot w w).toNat
      omega
    · show (dot v w : ℝ) / Real.sqrt (((dot v v * dot w w).toNat : ℕ) : ℝ) = _
      have h1 : ((dot v v * dot w w).toNat : ℤ) = dot v v * dot w w :=
        Int.toNat_of_nonneg hprod.le
      have hcast : (((dot v v * dot w w).toNat : ℕ) : ℝ) = ((dot v v * dot w w : ℤ) : ℝ) := by
        exact_mod_cast congrArg (fun z : ℤ => (z : ℝ)) h1
      rw [hcast, Int.cast_mul]

/-- C5 amended theorem, witnessed at the non-degenerate input `[1], [1]`. -/
theorem cosine_similarity_value_witness :
    0 < (cosine_similarity [(1 : ℤ)] [(1 : ℤ)]).den ∧
    (cosine_similarity [(1 : ℤ)] [(1 : ℤ)]).val =
      (dot [(1 : ℤ)] [(1 : ℤ)] : ℝ) /
        Real.sqrt ((dot [(1 : ℤ)] [(1 : ℤ)] : ℝ) * (dot [(1 : ℤ)] [(1 : ℤ)] : ℝ)) :=
  (cosine_similarity_value [(1 : ℤ)] [(1 : ℤ)]).2 (by decide) (by decide)

theorem CosSim.val_one {s : CosSim} (h1 : 0 < s.num) (h2 : s.num ^ 2 = (s.den : ℤ)) :
    s.val = 1 := by
  unfold CosSim.val
  have hd : ((s.den : ℕ) : ℝ) = ((s.num : ℤ) : ℝ) ^ 2 := by
    have := congrArg (fun z : ℤ => (z : ℝ)) h2
    push_cast at this
    linarith
  rw [hd, Real.sqrt_sq (by exact_mod_cast h1.le)]
  have hne : ((s.num : ℤ) : ℝ) ≠ 0 := by
    have : (0 : ℝ) < ((s.num : ℤ) : ℝ) := by exact_mod_cast h1
    linarith
  exact div_self hne

/-- C8: cosine similarity of any vector of nonzero norm with itself is
exactly 1, and every diagonal entry of both the user-similarity matrix and
the interest-similarity matrix equals 1. -/
theorem cosine_self_similarity_one :
    (∀ v : List ℤ, dot v v ≠ 0 → (cosine_similarity v v).val = 1) ∧
    (∀ i, i < 15 → ((user_similarities.getD i []).getD i ⟨0, 0⟩).val = 1) ∧
    (∀ j, j < 36 → ((interest_similarities.getD j []).getD j ⟨0, 0⟩).val = 1) := by
  have hself : ∀ v : List ℤ, dot v v ≠ 0 → (cosine_similarity v v).val = 1 := by
    intro v hv
    have hpos : 0 < dot v v := lt_of_le_of_ne (dot_self_nonneg v) (Ne.symm hv)
    refine CosSim.val_one hpos ?_
    show dot v v ^ 2 = (((dot v v * dot v v).toNat : ℕ) : ℤ)
    rw [Int.toNat_of_nonneg (by positivity)]
    ring
  refine ⟨hself, ?_, ?_⟩
  · have H : ∀ i ∈ List.range 15,
        0 < ((user_similarities.getD i []).getD i ⟨0, 0⟩).num ∧
        ((user_similarities.getD i []).getD i ⟨0, 0⟩).num ^ 2 =
          (((user_similarities.getD i []).getD i ⟨0, 0⟩).den : ℤ) := by decide
    intro i hi
    obtain ⟨h1, h2⟩ := H i (List.mem_range.mpr hi)
    exact CosSim.val_one h1 h2
  · have H : ∀ j ∈ List.range 36,
        0 < ((interest_similarities.getD j []).getD j ⟨0, 0⟩).num ∧
        ((interest_similarities.getD j []).getD j ⟨0, 0⟩).num ^ 2 =
          (((interest_similarities.getD j []).getD j ⟨0, 0⟩).den : ℤ) := by decide
    intro j hj
    obtain ⟨h1, h2⟩ := H j (List.mem_range.mpr hj)
    exact CosSim.val_one h1 h2

/-- C8, witnessed at a concrete nonzero vector and the first diagonal
entries of both matrices. -/
theorem cosine_self_similarity_one_witness :
    (cosine_similarity [(1 : ℤ), 0] [(1 : ℤ), 0]).val = 1 ∧
    ((user_similarities.getD 0 []).getD 0 ⟨0, 0⟩).val = 1 ∧
    ((interest_similarities.getD 0 []).getD 0 ⟨0, 0⟩).val = 1 :=
  ⟨cosine_self_similarity_one.1 [(1 : ℤ), 0] (by decide),
   cosine_self_similarity_one.2.1 0 (by norm_num),
   cosine_self_similarity_one.2.2 0 (by norm_num)⟩

/-- C9: on the sample dataset the cosine similarity of user 0 and user 9
is exactly `3/√(7·4)` (three shared interests — Hadoop, Big Data and Java
— out of 7 and 4 interests respectively), which lies strictly between
0.5669 and 0.567. -/
theorem sample_similarity_user0_user9 :
    (user_similarities.getD 0 []).getD 9 ⟨0, 0⟩ = ⟨3, 28⟩ ∧
    CosSim.val ⟨3, 28⟩ = 3 / Real.sqrt (7 * 4) ∧
    (0.5669 : ℝ) < CosSim.val ⟨3, 28⟩ ∧ CosSim.val ⟨3, 28⟩ < 0.567 ∧
    ((users_interests.getD 0 []).filter fun t => decide (t ∈ users_interests.getD 9 [])) =
      ["Hadoop", "Big Data", "Java"] ∧
    (users_interests.getD 0 []).length = 7 ∧ (users_interests.getD 9 []).length = 4 := by
  have hval : CosSim.val ⟨3, 28⟩ = 3 / Real.sqrt 28 := by
    show ((3 : ℤ) : ℝ) / Real.sqrt ((28 : ℕ) : ℝ) = 3 / Real.sqrt 28
    norm_num
  have hsqrtpos : (0 : ℝ) < Real.sqrt 28 := Real.sqrt_pos.mpr (by norm_num)
  have hs : Real.sqrt 28 ^ 2 = 28 := Real.sq_sqrt (by norm_num)
  refine ⟨by decide, ?_, ?_, ?_, by decide, by decide, by decide⟩
  · rw [hval]
    norm_num
  · rw [hval, lt_div_iff₀ hsqrtpos]
    nlinarith [hs, hsqrtpos, sq_nonneg (Real.sqrt 28 - 5.29151), sq_nonneg (Real.sqrt 28 - 5.2915)]
  · rw [hval, div_lt_iff₀ hsqrtpos]
    nlinarith [hs, hsqrtpos, sq_nonneg (Real.sqrt 28 - 5.29151), sq_nonneg (Real.sqrt 28 - 5.2915)]

theorem pyTake_sublist {α : Type} (l : List α) (k : ℤ) : (pyTake l k).Sublist l := by
  unfold pyTake
  split
  · exact List.take_sublist _ _
  · exact List.take_sublist _ _

/-- C10 counterexample: with a negative `max_results`, Python's slice
drops elements from the end instead of bounding the length, so the
"at most `max_results` pairs" bound fails (35 pairs are returned). -/
theorem most_popular_new_interests_negative_counterexample :
    (most_popular_new_interests [] (-1)).length = 35 ∧
    ¬(((most_popular_new_interests [] (-1)).length : ℤ) ≤ -1) := by
  decide

/-- C10 (amended): for every interest list and every **nonnegative**
`max_results`, `most_popular_new_interests` returns at most `max_results`
pairs; for every `max_results` whatsoever, no returned interest is in
`user_interests` and the pairs come in non-increasing order of global
occurrence count. -/
theorem most_popular_new_interests_spec (user_interests : List String) (max_results : ℤ) :
    (0 ≤ max_results →
      ((most_popular_new_interests user_interests max_results).length : ℤ) ≤ max_results) ∧
    (∀ p ∈ most_popular_new_interests user_interests max_results, p.1 ∉ user_interests) ∧
    (most_popular_new_interests user_interests max_results).Pairwise
      (fun a b => b.2 ≤ a.2) := by
  have hsub : (most_popular_new_interests user_interests max_results).Sublist
      (popular_interests.filter fun p => decide (p.1 ∉ user_interests)) :=
    pyTake_sublist _ _
  refine ⟨?_, ?_, ?_⟩
  · intro hk
    unfold most_popular_new_interests pyTake
    rw [if_pos hk]
    have h1 := List.length_take_le max_results.toNat
      (popular_interests.filter fun p => decide (p.1 ∉ user_interests))
    omega
  · intro p hp
    have hp' := hsub.mem hp
    exact of_decide_eq_true (List.mem_filter.mp hp').2
  · have hpop : popular_interests.Pairwise (fun a b => b.2 ≤ a.2) := by
      have : chainB (fun a b => decide (b.2 ≤ a.2)) popular_interests = true := by decide
      refine chainB_pairwise_of_mem popular_interests ?_ ?_ this
      · intro a _ b _ h
        exact of_decide_eq_true h
      · intro a _ b _ c _ h1 h2
        omega
    exact List.Pairwise.sublist (hsub.trans (List.filter_sublist _)) hpop

/-- C10 amended theorem, witnessed at the empty interest list and
`max_results = 5`. -/
theorem most_popular_new_interests_spec_witness :
    (((most_popular_new_interests [] 5).length : ℤ) ≤ 5) ∧
    ((most_popular_new_interests [] 5).getD 0 ("", 0)).1 ∉ ([] : List String) :=
  ⟨(most_popular_new_interests_spec [] 5).1 (by norm_num),
   (most_popular_new_interests_spec [] 5).2.1 _ (by decide)⟩

theorem pyIndex_error {α : Type} (l : List α) (i : ℤ)
    (h : (l.length : ℤ) ≤ i ∨ i < -(l.length : ℤ)) :
    pyIndex l i = .error "list index out of range" := by
  have hj : ¬(0 ≤ (if i < 0 then i + (l.length : ℤ) else i) ∧
      (if i < 0 then i + (l.length : ℤ) else i) < (l.length : ℤ)) := by
    by_cases hi : i < 0
    · rw [if_pos hi]; omega
    · rw [if_neg hi]; omega
  unfold pyIndex
  rw [dif_neg hj]

theorem pyIndex_isOk {α : Type} (l : List α) (i : ℤ)
    (h : -(l.length : ℤ) ≤ i ∧ i < (l.length : ℤ)) :
    ∃ a, pyIndex l i = .ok a := by
  have hj : 0 ≤ (if i < 0 then i + (l.length : ℤ) else i) ∧
      (if i < 0 then i + (l.length : ℤ) else i) < (l.length : ℤ) := by
    by_cases hi : i < 0
    · rw [if_pos hi]; omega
    · rw [if_neg hi]; omega
  unfold pyIndex
  rw [dif_pos hj]
  exact ⟨_, rfl⟩

theorem users_interests_length : users_interests.length = 15 := rfl

theorem user_similarities_length : user_similarities.length = 15 := rfl

theorem user_interest_matrix_length : user_interest_matrix.length = 15 := rfl

theorem interest_similarities_length : interest_similarities.length = 36 := rfl

/-- C6 counterexample: at the out-of-`[0, N)` index `-1`, Python's
negative indexing silently succeeds instead of raising: the call returns
a ranking (computed from user 14's row) that even contains user 14 itself
with self-similarity `3/√9 = 1`. -/
theorem checked_negative_index_counterexample :
    (get_similar_users_checked (-1)).isOk = true ∧
    (14, (⟨3, 9⟩ : CosSim)) ∈ (get_similar_users_checked (-1)).toOption.getD [] := by
  decide

/-- C6 (amended): indices `≥ N` or `< -N` make each suggestion function
fail with the explicit Python `IndexError`; but indices in `[-N, 0)` are
accepted through Python's negative indexing and silently return a
result. -/
theorem checked_out_of_range_behaviour (i : ℤ) (inc : Bool) :
    ((15 ≤ i ∨ i < -15) →
      get_similar_users_checked i = .error "list index out of range" ∧
      user_based_suggestions_checked i inc = .error "list index out of range" ∧
      item_based_suggestions_checked i inc = .error "list index out of range") ∧
    ((36 ≤ i ∨ i < -36) →
      get_similar_interests_checked i = .error "list index out of range") ∧
    (-15 ≤ i → i < 0 →
      (get_similar_users_checked i).isOk = true ∧
      (user_based_suggestions_checked i inc).isOk = true ∧
      (item_based_suggestions_checked i inc).isOk = true) ∧
    (-36 ≤ i → i < 0 → (get_similar_interests_checked i).isOk = true) := by
  refine ⟨?_, ?_, ?_, ?_⟩
  · intro h
    have he1 : pyIndex user_similarities i = .error "list index out of range" :=
      pyIndex_error _ _ (by rw [user_similarities_length]; push_cast; omega)
    have he2 : pyIndex user_interest_matrix i = .error "list index out of range" :=
      pyIndex_error _ _ (by rw [user_interest_matrix_length]; push_cast; omega)
    have hgsu : get_similar_users_checked i = .error "list index out of range" := by
      unfold get_similar_users_checked
      rw [he1]
      rfl
    refine ⟨hgsu, ?_, ?_⟩
    · unfold user_based_suggestions_checked
      rw [hgsu]
      rfl
    · unfold item_based_suggestions_checked
      rw [he2]
      rfl
  · intro h
    have he : pyIndex interest_similarities i = .error "list index out of range" :=
      pyIndex_error _ _ (by rw [interest_similarities_length]; push_cast; omega)
    unfold get_similar_interests_checked
    rw [he]
    rfl
  · intro h1 h2
    obtain ⟨row, hrow⟩ := pyIndex_isOk user_similarities i
      (by rw [user_similarities_length]; push_cast; omega)
    obtain ⟨vec, hvec⟩ := pyIndex_isOk user_interest_matrix i
      (by rw [user_interest_matrix_length]; push_cast; omega)
    obtain ⟨mine, hmine⟩ := pyIndex_isOk users_interests i
      (by rw [users_interests_length]; push_cast; omega)
    have hgsu : get_similar_users_checked i = .ok (sortBySimDesc (simPairs row i)) := by
      unfold get_similar_users_checked
      rw [hrow]
      rfl
    refine ⟨by rw [hgsu]; rfl, ?_, ?_⟩
    · unfold user_based_suggestions_checked
      rw [hgsu]
      cases inc
      · show (Except.ok _ >>= _).isOk = true
        rw [show ∀ (x : List (ℕ × CosSim))
            (f : List (ℕ × CosSim) → Except String (List (String × SqrtSum))),
            (Except.ok x >>= f) = f x from fun _ _ => rfl]
        show ((pyIndex users_interests i).bind _).isOk = true
        rw [hmine]
        rfl
      · rfl
    · unfold item_based_suggestions_checked
      rw [hvec]
      cases inc
      · show (Except.ok _ >>= _).isOk = true
        rw [show ∀ (x : List ℤ)
            (f : List ℤ → Except String (List (String × SqrtSum))),
            (Except.ok x >>= f) = f x from fun _ _ => rfl]
        show ((pyIndex users_interests i).bind _).isOk = true
        rw [hmine]
        rfl
      · rfl
  · intro h1 h2
    obtain ⟨row, hrow⟩ := pyIndex_isOk interest_similarities i
      (by rw [interest_similarities_length]; push_cast; omega)
    unfold get_similar_interests_checked
    rw [hrow]
    rfl

/-- C6 amended theorem, witnessed at the concrete indices 15, 36 and -1. -/
theorem checked_out_of_range_behaviour_witness :
    get_similar_users_checked 15 = .error "list index out of range" ∧
    get_similar_interests_checked 36 = .error "list index out of range" ∧
    (user_based_suggestions_checked (-1) false).isOk = true :=
  ⟨((checked_out_of_range_behaviour 15 false).1 (by norm_num)).1,
   (checked_out_of_range_behaviour 36 false).2.1 (by norm_num),
   ((checked_out_of_range_behaviour (-1) false).2.2.1 (by norm_num) (by norm_num)).2.1⟩

/-- C7 counterexample: in the two-user table `[["A"], ["A"]]`, user 0
shares the interest `"A"` with user 1, yet both default-filtered
suggestion lists for user 0 are empty (the only candidate interest is one
the user already holds). -/
theorem suggestions_nonempty_counterexample :
    "A" ∈ ([["A"], ["A"]] : List (List String)).getD 0 [] ∧
    "A" ∈ ([["A"], ["A"]] : List (List String)).getD 1 [] ∧
    user_based_suggestions_of [["A"], ["A"]] 0 false = [] ∧
    item_based_suggestions_of [["A"], ["A"]] 0 false = [] := by
  decide

theorem zipWith_self_eq_map {α β : Type} (f : α → α → β) :
    ∀ l : List α, List.zipWith f l l = l.map fun a => f a a := by
  intro l
  induction l with
  | nil => rfl
  | cons a t ih => simp [List.zipWith_cons_cons, ih]

theorem mem_unique_interests_of {ui : List (List String)} {t : String} {l : List String}
    (hl : l ∈ ui) (ht : t ∈ l) : t ∈ unique_interests_of ui := by
  unfold unique_interests_of
  rw [mem_sortedBy, List.mem_dedup]
  exact List.mem_flatten.mpr ⟨l, hl, ht⟩

theorem dot_mvec_pos {uniq : List String} {a b : List String} {t : String}
    (ht : t ∈ uniq) (ha : t ∈ a) (hb : t ∈ b) :
    0 < dot (make_user_interest_vector uniq a) (make_user_interest_vector uniq b) := by
  unfold dot make_user_interest_vector
  rw [List.zipWith_map, zipWith_self_eq_map]
  have hnn : ∀ x ∈ uniq.map (fun s =>
      (if s ∈ a then (1 : ℤ) else 0) * (if s ∈ b then (1 : ℤ) else 0)), 0 ≤ x := by
    intro x hx
    obtain ⟨s, _, rfl⟩ := List.mem_map.mp hx
    split <;> split <;> norm_num
  have hmem : (1 : ℤ) ∈ uniq.map (fun s =>
      (if s ∈ a then (1 : ℤ) else 0) * (if s ∈ b then (1 : ℤ) else 0)) := by
    refine List.mem_map.mpr ⟨t, ht, ?_⟩
    rw [if_pos ha, if_pos hb, one_mul]
  have := List.single_le_sum hnn 1 hmem
  linarith

theorem mvec_getD_nonneg (uniq l : List String) (j : ℕ) :
    0 ≤ (make_user_interest_vector uniq l).getD j 0 := by
  unfold make_user_interest_vector
  by_cases h : j < uniq.length
  · rw [List.getD_eq_getElem _ _ (by simpa using h), List.getElem_map]
    split <;> norm_num
  · rw [List.getD_eq_default _ _ (by simpa using not_lt.mp h)]

theorem mvec_getD_one {uniq l : List String} {j : ℕ} (hj : j < uniq.length)
    (ht : uniq.get ⟨j, hj⟩ ∈ l) : (make_user_interest_vector uniq l).getD j 0 = 1 := by
  unfold make_user_interest_vector
  rw [List.getD_eq_getElem _ _ (by simpa using hj), List.getElem_map]
  exact if_pos (by simpa [List.get_eq_getElem] using ht)

/-- Positivity of the dot product of two transposed (interest) rows when
one member row has a `1` in both coordinates. -/
theorem dot_transposed_pos {m : List (List ℤ)} {j j' : ℕ} {r : List ℤ}
    (hr : r ∈ m) (h1 : r.getD j 0 = 1) (h2 : r.getD j' 0 = 1)
    (hnn : ∀ s ∈ m, 0 ≤ s.getD j 0 ∧ 0 ≤ s.getD j' 0) :
    0 < dot (m.map fun v => v.getD j 0) (m.map fun v => v.getD j' 0) := by
  unfold dot
  rw [List.zipWith_map, zipWith_self_eq_map]
  have hnn' : ∀ x ∈ m.map (fun s => s.getD j 0 * s.getD j' 0), 0 ≤ x := by
    intro x hx
    obtain ⟨s, hs, rfl⟩ := List.mem_map.mp hx
    exact mul_nonneg (hnn s hs).1 (hnn s hs).2
  have hmem : (1 : ℤ) ∈ m.map (fun s => s.getD j 0 * s.getD j' 0) := by
    refine List.mem_map.mpr ⟨r, hr, ?_⟩
    rw [h1, h2, one_mul]
  have := List.single_le_sum hnn' 1 hmem
  linarith

theorem UIM_length (ui : List (List String)) :
    (user_interest_matrix_of ui).length = ui.length := by
  unfold user_interest_matrix_of
  exact List.length_map _ _

theorem UIM_getD {ui : List (List String)} {u : ℕ} (hu : u < ui.length) :
    (user_interest_matrix_of ui).getD u [] =
      make_user_interest_vector (unique_interests_of ui) (ui.getD u []) := by
  unfold user_interest_matrix_of
  rw [List.getD_eq_getElem _ _ (by rw [List.length_map]; exact hu), List.getElem_map,
    List.getD_eq_getElem _ _ hu]

theorem USim_eq (ui : List (List String)) : user_similarities_of ui =
    (user_interest_matrix_of ui).map fun vi =>
      (user_interest_matrix_of ui).map fun vj => cosine_similarity vi vj := rfl

theorem USim_row {ui : List (List String)} {u : ℕ} (hu : u < ui.length) :
    (user_similarities_of ui).getD u [] =
      (user_interest_matrix_of ui).map fun vj =>
        cosine_similarity ((user_interest_matrix_of ui).getD u []) vj := by
  rw [USim_eq]
  rw [List.getD_eq_getElem _ _ (by rw [List.length_map, UIM_length]; exact hu),
    List.getElem_map]
  congr 1
  rw [List.getD_eq_getElem _ _ (by rw [UIM_length]; exact hu)]

theorem USim_row_length {ui : List (List String)} {u : ℕ} (hu : u < ui.length) :
    ((user_similarities_of ui).getD u []).length = ui.length := by
  rw [USim_row hu, List.length_map, UIM_length]

theorem USim_entry {ui : List (List String)} {u v : ℕ} (hu : u < ui.length)
    (hv : v < ui.length) :
    ((user_similarities_of ui).getD u []).getD v ⟨0, 0⟩ =
      cosine_similarity ((user_interest_matrix_of ui).getD u [])
        ((user_interest_matrix_of ui).getD v []) := by
  rw [USim_row hu]
  rw [List.getD_eq_getElem _ _ (by rw [List.length_map, UIM_length]; exact hv),
    List.getElem_map]
  congr 1
  exact (List.getD_eq_getElem _ _ (by rw [UIM_length]; exact hv)).symm

theorem mem_simPairs {row : List CosSim} {v : ℕ} {uid : ℤ} {s : CosSim}
    (hv : v < row.length) (hs : row.getD v ⟨0, 0⟩ = s) (hne : uid ≠ (v : ℤ))
    (hpos : s.posB = true) : (v, s) ∈ simPairs row uid := by
  unfold simPairs
  refine List.mem_filter.mpr ⟨?_, ?_⟩
  · rw [List.mem_enum_iff_getElem?]
    show row[v]? = some s
    rw [List.getElem?_eq_getElem hv, ← hs, List.getD_eq_getElem _ _ hv]
  · show (decide (uid ≠ ((v, s).1 : ℤ)) && CosSim.posB (v, s).2) = true
    rw [Bool.and_eq_true, decide_eq_true_iff]
    exact ⟨hne, hpos⟩

theorem shared_interest_mem_gsu {ui : List (List String)} {u v : ℕ} {t : String}
    (hu : u < ui.length) (hv : v < ui.length) (hvu : v ≠ u)
    (htu : t ∈ ui.getD u []) (htv : t ∈ ui.getD v []) :
    (v, cosine_similarity ((user_interest_matrix_of ui).getD u [])
      ((user_interest_matrix_of ui).getD v [])) ∈ get_similar_users_of ui u := by
  have htuniq : t ∈ unique_interests_of ui := by
    refine mem_unique_interests_of ?_ htv
    rw [List.getD_eq_getElem _ _ hv]
    exact List.getElem_mem _
  have hduu : 0 < dot ((user_interest_matrix_of ui).getD u [])
      ((user_interest_matrix_of ui).getD u []) := by
    rw [UIM_getD hu]
    exact dot_mvec_pos htuniq htu htu
  have hdvv : 0 < dot ((user_interest_matrix_of ui).getD v [])
      ((user_interest_matrix_of ui).getD v []) := by
    rw [UIM_getD hv]
    exact dot_mvec_pos htuniq htv htv
  have hduv : 0 < dot ((user_interest_matrix_of ui).getD u [])
      ((user_interest_matrix_of ui).getD v []) := by
    rw [UIM_getD hu, UIM_getD hv]
    exact dot_mvec_pos htuniq htu htv
  unfold get_similar_users_of sortBySimDesc
  rw [mem_sortedBy]
  refine mem_simPairs ?_ ?_ ?_ ?_
  · rw [USim_row_length hu]; exact hv
  · exact USim_entry hu hv
  · exact_mod_cast hvu.symm
  · unfold cosine_similarity CosSim.posB
    rw [Bool.and_eq_true, decide_eq_true_iff, decide_eq_true_iff]
    refine ⟨hduv, ?_⟩
    show 0 < (dot _ _ * dot _ _).toNat
    have := mul_pos hduu hdvv
    omega

theorem upsert_keys {x : String} :
    ∀ (acc : List (String × SqrtSum)) (k : String) (s : SqrtSum),
      (x ∈ (upsert acc k s).map Prod.fst ↔ x = k ∨ x ∈ acc.map Prod.fst) := by
  intro acc
  induction acc with
  | nil =>
    intro k s
    simp [upsert]
  | cons a rest ih =>
    intro k s
    obtain ⟨k', w⟩ := a
    unfold upsert
    by_cases h : k' = k
    · rw [if_pos h]
      subst h
      simp only [List.map_cons, List.mem_cons]
      tauto
    · rw [if_neg h]
      simp only [List.map_cons, List.mem_cons, ih]
      tauto

theorem accum_inner_keys (w : SqrtSum) (x : String) :
    ∀ (l : List String) (acc : List (String × SqrtSum)),
      (x ∈ l ∨ x ∈ acc.map Prod.fst) →
      x ∈ (l.foldl (fun a t => upsert a t w) acc).map Prod.fst := by
  intro l
  induction l with
  | nil =>
    intro acc h
    rcases h with h | h
    · simp at h
    · exact h
  | cons b rest ih =>
    intro acc h
    rw [List.foldl_cons]
    apply ih
    rcases h with h | h
    · rcases List.mem_cons.mp h with rfl | h'
      · exact Or.inr ((upsert_keys acc x w).mpr (Or.inl rfl))
      · exact Or.inl h'
    · exact Or.inr ((upsert_keys acc b w).mpr (Or.inr h))

theorem accumulate_user_keys {ui : List (List String)} {x : String} :
    ∀ (sims : List (ℕ × CosSim)) (acc : List (String × SqrtSum)),
      ((∃ p ∈ sims, x ∈ ui.getD p.1 []) ∨ x ∈ acc.map Prod.fst) →
      x ∈ (sims.foldl (fun acc p => (ui.getD p.1 []).foldl
        (fun acc interest => upsert acc interest (CosSim.toSqrtSum p.2)) acc) acc).map
          Prod.fst := by
  intro sims
  induction sims with
  | nil =>
    intro acc h
    rcases h with ⟨p, hp, _⟩ | h
    · simp at hp
    · exact h
  | cons q rest ih =>
    intro acc h
    rw [List.foldl_cons]
    apply ih
    rcases h with ⟨p, hp, hx⟩ | h
    · rcases List.mem_cons.mp hp with rfl | hp'
      · exact Or.inr (accum_inner_keys _ _ _ _ (Or.inl hx))
      · exact Or.inl ⟨p, hp', hx⟩
    · exact Or.inr (accum_inner_keys _ _ _ _ (Or.inr h))

theorem user_based_nonempty {ui : List (List String)} {u v : ℕ} {t x : String}
    (hu : u < ui.length) (hv : v < ui.length) (hvu : v ≠ u)
    (htu : t ∈ ui.getD u []) (htv : t ∈ ui.getD v [])
    (hxv : x ∈ ui.getD v []) (hxu : x ∉ ui.getD u []) :
    user_based_suggestions_of ui u false ≠ [] := by
  have hmemgsu := shared_interest_mem_gsu hu hv hvu htu htv
  have hkey : x ∈ (user_suggestion_weights_of ui u).map Prod.fst := by
    unfold user_suggestion_weights_of accumulate_user
    exact accumulate_user_keys _ _ (Or.inl ⟨_, hmemgsu, hxv⟩)
  obtain ⟨pr, hpr, hpr1⟩ := List.mem_map.mp hkey
  have hsorted : pr ∈ sortByWeightDesc (user_suggestion_weights_of ui u) := by
    unfold sortByWeightDesc
    rw [mem_sortedBy]
    exact hpr
  have hfilter : pr ∈ user_based_suggestions_of ui u false := by
    show pr ∈ (sortByWeightDesc (user_suggestion_weights_of ui u)).filter
      (fun p => decide (p.1 ∉ ui.getD u []))
    refine List.mem_filter.mpr ⟨hsorted, ?_⟩
    rw [decide_eq_true_iff, hpr1]
    exact hxu
  exact List.ne_nil_of_mem hfilter

theorem IUM_eq (ui : List (List String)) : interest_user_matrix_of ui =
    (List.range (unique_interests_of ui).length).map fun j =>
      (user_interest_matrix_of ui).map fun v => v.getD j 0 := rfl

theorem IUM_length (ui : List (List String)) :
    (interest_user_matrix_of ui).length = (unique_interests_of ui).length := by
  rw [IUM_eq, List.length_map, List.length_range]

theorem IUM_getD {ui : List (List String)} {j : ℕ}
    (hj : j < (unique_interests_of ui).length) :
    (interest_user_matrix_of ui).getD j [] =
      (user_interest_matrix_of ui).map fun v => v.getD j 0 := by
  rw [IUM_eq, List.getD_eq_getElem _ _ (by rw [List.length_map, List.length_range]; exact hj),
    List.getElem_map, List.getElem_range]

theorem ISim_eq (ui : List (List String)) : interest_similarities_of ui =
    (interest_user_matrix_of ui).map fun vi =>
      (interest_user_matrix_of ui).map fun vj => cosine_similarity vi vj := rfl

theorem ISim_row {ui : List (List String)} {j : ℕ}
    (hj : j < (unique_interests_of ui).length) :
    (interest_similarities_of ui).getD j [] =
      (interest_user_matrix_of ui).map fun vj =>
        cosine_similarity ((interest_user_matrix_of ui).getD j []) vj := by
  rw [ISim_eq]
  rw [List.getD_eq_getElem _ _ (by rw [List.length_map, IUM_length]; exact hj),
    List.getElem_map]
  congr 1
  funext vj
  rw [List.getD_eq_getElem _ _ (by rw [IUM_length]; exact hj)]

theorem ISim_row_length {ui : List (List String)} {j : ℕ}
    (hj : j < (unique_interests_of ui).length) :
    ((interest_similarities_of ui).getD j []).length = (unique_interests_of ui).length := by
  rw [ISim_row hj, List.length_map, IUM_length]

theorem ISim_entry {ui : List (List String)} {j j' : ℕ}
    (hj : j < (unique_interests_of ui).length)
    (hj' : j' < (unique_interests_of ui).length) :
    ((interest_similarities_of ui).getD j []).getD j' ⟨0, 0⟩ =
      cosine_similarity ((interest_user_matrix_of ui).getD j [])
        ((interest_user_matrix_of ui).getD j' []) := by
  rw [ISim_row hj]
  rw [List.getD_eq_getElem _ _ (by rw [List.length_map, IUM_length]; exact hj'),
    List.getElem_map]
  congr 1
  first
  | exact List.getD_eq_getElem _ _ (by rw [IUM_length]; exact hj')
  | exact (List.getD_eq_getElem _ _ (by rw [IUM_length]; exact hj')).symm

theorem mem_interestPairs {uniq : List String} {row : List CosSim} {j : ℕ} {iid : ℤ}
    {s : CosSim} (hj : j < row.length) (hs : row.getD j ⟨0, 0⟩ = s) (hne : iid ≠ (j : ℤ))
    (hpos : s.posB = true) : (uniq.getD j "", s) ∈ interestPairs uniq row iid := by
  unfold interestPairs
  refine List.mem_map.mpr ⟨(j, s), ?_, rfl⟩
  refine List.mem_filter.mpr ⟨?_, ?_⟩
  · rw [List.mem_enum_iff_getElem?]
    show row[j]? = some s
    rw [List.getElem?_eq_getElem hj, ← hs, List.getD_eq_getElem _ _ hj]
  · show (decide (iid ≠ ((j, s).1 : ℤ)) && CosSim.posB (j, s).2) = true
    rw [Bool.and_eq_true, decide_eq_true_iff]
    exact ⟨hne, hpos⟩

theorem shared_interest_mem_gsi {ui : List (List String)} {v j j' : ℕ}
    (hv : v < ui.length)
    (hj : j < (unique_interests_of ui).length)
    (hj' : j' < (unique_interests_of ui).length) (hne : j ≠ j')
    (h1 : (unique_interests_of ui).get ⟨j, hj⟩ ∈ ui.getD v [])
    (h2 : (unique_interests_of ui).get ⟨j', hj'⟩ ∈ ui.getD v []) :
    ((unique_interests_of ui).getD j' "",
      cosine_similarity ((interest_user_matrix_of ui).getD j [])
        ((interest_user_matrix_of ui).getD j' [])) ∈ get_similar_interests_of ui j := by
  have hrmem : (user_interest_matrix_of ui).getD v [] ∈ user_interest_matrix_of ui := by
    rw [List.getD_eq_getElem _ _ (by rw [UIM_length]; exact hv)]
    exact List.getElem_mem _
  have hr1 : ((user_interest_matrix_of ui).getD v []).getD j 0 = 1 := by
    rw [UIM_getD hv]
    exact mvec_getD_one hj h1
  have hr2 : ((user_interest_matrix_of ui).getD v []).getD j' 0 = 1 := by
    rw [UIM_getD hv]
    exact mvec_getD_one hj' h2
  have hnn : ∀ s ∈ user_interest_matrix_of ui, 0 ≤ s.getD j 0 ∧ 0 ≤ s.getD j' 0 := by
    intro s hs
    unfold user_interest_matrix_of at hs
    obtain ⟨l, _, rfl⟩ := List.mem_map.mp hs
    exact ⟨mvec_getD_nonneg _ _ _, mvec_getD_nonneg _ _ _⟩
  have hdjj : 0 < dot ((interest_user_matrix_of ui).getD j [])
      ((interest_user_matrix_of ui).getD j []) := by
    rw [IUM_getD hj]
    exact dot_transposed_pos hrmem hr1 hr1 (fun s hs => ⟨(hnn s hs).1, (hnn s hs).1⟩)
  have hdj'j' : 0 < dot ((interest_user_matrix_of ui).getD j' [])
      ((interest_user_matrix_of ui).getD j' []) := by
    rw [IUM_getD hj']
    exact dot_transposed_pos hrmem hr2 hr2 (fun s hs => ⟨(hnn s hs).2, (hnn s hs).2⟩)
  have hdjj' : 0 < dot ((interest_user_matrix_of ui).getD j [])
      ((interest_user_matrix_of ui).getD j' []) := by
    rw [IUM_getD hj, IUM_getD hj']
    exact dot_transposed_pos hrmem hr1 hr2 hnn
  unfold get_similar_interests_of sortBySimDesc
  rw [mem_sortedBy]
  refine mem_interestPairs ?_ ?_ ?_ ?_
  · rw [ISim_row_length hj]
    exact hj'
  · exact ISim_entry hj hj'
  · exact_mod_cast hne
  · unfold cosine_similarity CosSim.posB
    rw [Bool.and_eq_true, decide_eq_true_iff, decide_eq_true_iff]
    refine ⟨hdjj', ?_⟩
    show 0 < (dot _ _ * dot _ _).toNat
    have := mul_pos hdjj hdj'j'
    omega

theorem item_inner_keys (x : String) :
    ∀ (l : List (String × CosSim)) (acc : List (String × SqrtSum)),
      ((∃ s, (x, s) ∈ l) ∨ x ∈ acc.map Prod.fst) →
      x ∈ (l.foldl (fun a t => upsert a t.1 (CosSim.toSqrtSum t.2)) acc).map Prod.fst := by
  intro l
  induction l with
  | nil =>
    intro acc h
    rcases h with ⟨s, hs⟩ | h
    · simp at hs
    · exact h
  | cons q rest ih =>
    intro acc h
    rw [List.foldl_cons]
    apply ih
    rcases h with ⟨s, hs⟩ | h
    · rcases List.mem_cons.mp hs with heq | h'
      · exact Or.inr ((upsert_keys acc q.1 _).mpr (Or.inl (congrArg Prod.fst heq)))
      · exact Or.inl ⟨s, h'⟩
    · exact Or.inr ((upsert_keys acc q.1 _).mpr (Or.inr h))

theorem item_outer_keys (gsi : ℕ → List (String × CosSim)) (x : String) :
    ∀ (l : List (ℕ × ℤ)) (acc : List (String × SqrtSum)),
      ((∃ q ∈ l, q.2 = 1 ∧ ∃ s, (x, s) ∈ gsi q.1) ∨ x ∈ acc.map Prod.fst) →
      x ∈ (l.foldl (fun acc p =>
        if p.2 = 1 then
          (gsi p.1).foldl (fun acc t => upsert acc t.1 (CosSim.toSqrtSum t.2)) acc
        else acc) acc).map Prod.fst := by
  intro l
  induction l with
  | nil =>
    intro acc h
    rcases h with ⟨q, hq, _⟩ | h
    · simp at hq
    · exact h
  | cons p rest ih =>
    intro acc h
    rw [List.foldl_cons]
    apply ih
    rcases h with ⟨q, hq, hq2, s, hs⟩ | h
    · rcases List.mem_cons.mp hq with rfl | hq'
      · refine Or.inr ?_
        rw [if_pos hq2]
        exact item_inner_keys _ _ _ (Or.inl ⟨s, hs⟩)
      · exact Or.inl ⟨q, hq', hq2, s, hs⟩
    · refine Or.inr ?_
      by_cases hp : p.2 = 1
      · rw [if_pos hp]
        exact item_inner_keys _ _ _ (Or.inr h)
      · rw [if_neg hp]
        exact h

theorem item_based_nonempty {ui : List (List String)} {u v : ℕ} {t x : String}
    (hu : u < ui.length) (hv : v < ui.length)
    (htu : t ∈ ui.getD u []) (htv : t ∈ ui.getD v [])
    (hxv : x ∈ ui.getD v []) (hxu : x ∉ ui.getD u []) :
    item_based_suggestions_of ui u false ≠ [] := by
  have hlu : ui.getD u [] ∈ ui := by
    rw [List.getD_eq_getElem _ _ hu]
    exact List.getElem_mem _
  have hlv : ui.getD v [] ∈ ui := by
    rw [List.getD_eq_getElem _ _ hv]
    exact List.getElem_mem _
  obtain ⟨j, hj, hgt⟩ := List.mem_iff_getElem.mp (mem_unique_interests_of hlu htu)
  obtain ⟨j', hj', hgx⟩ := List.mem_iff_getElem.mp (mem_unique_interests_of hlv hxv)
  have hne : j ≠ j' := by
    intro h
    subst h
    have htx : t = x := hgt.symm.trans hgx
    exact hxu (htx ▸ htu)
  have hgsi := shared_interest_mem_gsi hv hj hj' hne
    (by rw [List.get_eq_getElem, hgt]; exact htv)
    (by rw [List.get_eq_getElem, hgx]; exact hxv)
  have hx : (unique_interests_of ui).getD j' "" = x := by
    rw [List.getD_eq_getElem _ _ hj', hgx]
  rw [hx] at hgsi
  have hvec : (user_interest_matrix_of ui).getD u [] =
      make_user_interest_vector (unique_interests_of ui) (ui.getD u []) := UIM_getD hu
  have hlen : j < ((user_interest_matrix_of ui).getD u []).length := by
    rw [hvec]
    unfold make_user_interest_vector
    rw [List.length_map]
    exact hj
  have hval : ((user_interest_matrix_of ui).getD u []).getD j (0 : ℤ) = 1 := by
    rw [hvec]
    exact mvec_getD_one hj (by rw [List.get_eq_getElem, hgt]; exact htu)
  have henum : (j, (1 : ℤ)) ∈ ((user_interest_matrix_of ui).getD u []).enum := by
    rw [List.mem_enum_iff_getElem?]
    show _[j]? = some 1
    rw [List.getElem?_eq_getElem hlen, ← hval, List.getD_eq_getElem _ _ hlen]
  have hkey : x ∈ (item_suggestion_weights_of ui u).map Prod.fst := by
    unfold item_suggestion_weights_of item_weights_core
    exact item_outer_keys _ _ _ _ (Or.inl ⟨(j, 1), henum, rfl, _, hgsi⟩)
  obtain ⟨pr, hpr, hpr1⟩ := List.mem_map.mp hkey
  have hsorted : pr ∈ sortByWeightDesc (item_suggestion_weights_of ui u) := by
    unfold sortByWeightDesc
    rw [mem_sortedBy]
    exact hpr
  have hfilter : pr ∈ item_based_suggestions_of ui u false := by
    show pr ∈ (sortByWeightDesc (item_suggestion_weights_of ui u)).filter
      (fun p => decide (p.1 ∉ ui.getD u []))
    refine List.mem_filter.mpr ⟨hsorted, ?_⟩
    rw [decide_eq_true_iff, hpr1]
    exact hxu
  exact List.ne_nil_of_mem hfilter

/-- C7: the claim as literally stated is refuted by
`suggestions_nonempty_counterexample` — sharing an interest guarantees a
similar user, but every candidate suggestion may already be held by the
user, in which case the default filter empties both lists.  Amended
claim: if some other user `v` shares an interest `t` with user `u` and
additionally holds an interest `x` that `u` does not hold, then both
`user_based_suggestions` and `item_based_suggestions` with default
filtering return non-empty lists. -/
theorem suggestions_nonempty (ui : List (List String)) (u v : ℕ) (t x : String)
    (hu : u < ui.length) (hv : v < ui.length) (hvu : v ≠ u)
    (htu : t ∈ ui.getD u []) (htv : t ∈ ui.getD v [])
    (hxv : x ∈ ui.getD v []) (hxu : x ∉ ui.getD u []) :
    user_based_suggestions_of ui u false ≠ [] ∧
      item_based_suggestions_of ui u false ≠ [] :=
  ⟨user_based_nonempty hu hv hvu htu htv hxv hxu,
   item_based_nonempty hu hv htu htv hxv hxu⟩

/-- C7 amended theorem, witnessed on the notebook's table at user 0: user 9
shares Hadoop with user 0 and holds MapReduce, which user 0 does not. -/
theorem suggestions_nonempty_witness :
    user_based_suggestions_of users_interests 0 false ≠ [] ∧
      item_based_suggestions_of users_interests 0 false ≠ [] :=
  suggestions_nonempty users_interests 0 9 "Hadoop" "MapReduce"
    (by decide) (by decide) (by decide) (by decide) (by decide) (by decide) (by decide)
